import Mathlib

/-!
# Sigilry landing page scripts: sigil generator and animation scheduler

A shallow embedding of `src/tools/script.js`:

* `mulberry32` (the seeded generator) and `generateSigil` (the mirrored
  character grid),
* the scheduler of the hero canvas (`frame`, the pause, visibility and resize
  handlers),
* the draw step of the hero canvas (`draw`, `field`, `clamp01`),

and of the colour helpers `clamp255`, `rgbToHex` and `hexToRgb` of
`src/tools/element_color_tuner_single_page_webapp.jsx`.

Conventions of the embedding.

* 32-bit integers (`>>> 0`, `^`, `|`, `Math.imul`) are natural numbers below
  `2 ^ 32`: the bit pattern of the JavaScript int32 / uint32 value.
* The counter `t` of `mulberry32` is a JavaScript number (an IEEE-754 double)
  that only ever holds non-negative integers. It is a natural number, and
  `t += 0x6d2b79f5` rounds the exact sum to the nearest double
  (`roundToDouble`), which is the identity below `2 ^ 53`.
* In the scheduler, timestamps, sizes and the simulation time are rationals
  that stand for doubles, and every arithmetic operation of the source on them
  (`ts - last`, `1000 / 12`, `t += 0.15`, `rect.width * dpr`) rounds its exact
  result to the nearest double (`fl`).
* Every other number (PRNG outputs, fill chances, the numbers of the draw
  step) is an exact rational; rounding of those doubles is not modelled.
* A grid cell is `Option Char`: `none` is JavaScript `undefined`, what indexing
  a string out of range returns and what `join` renders as the empty string.
-/

namespace Sigilry

/-! ## Sigil generator: `mulberry32` -/

/-- Spacing of the doubles around `n ≥ 2 ^ 53`: the least power of two `u`
(starting from `u`) with `n / u < 2 ^ 53`. The fuel bounds the number of
doublings; 1024 covers every finite double. -/
def ulpFrom : Nat → Nat → Nat → Nat
  | 0, u, _ => u
  | fuel + 1, u, n => if n / u < 2 ^ 53 then u else ulpFrom fuel (2 * u) n

/-- The double nearest to the natural number `n` (round to nearest, ties to
even significand), for `n` in the range of finite doubles. Integers below
`2 ^ 53` are doubles themselves. The counter of `mulberry32` stays at or below
`2 ^ 84` (`Rng.after_le`), far inside that range and with fuel to spare. -/
def roundToDouble (n : Nat) : Nat :=
  if n < 2 ^ 53 then n
  else
    let ulp := ulpFrom 1024 1 n
    let q := n / ulp
    let r := n % ulp
    if 2 * r < ulp then q * ulp
    else if ulp < 2 * r then (q + 1) * ulp
    else if q % 2 = 0 then q * ulp
    else (q + 1) * ulp

/-- JavaScript `Math.imul(a, b)`: the low 32 bits of the product. -/
def imul (a b : Nat) : Nat := (a * b) % 4294967296

/-- The closure returned by `mulberry32`; its only captured variable is the
counter `t`. -/
structure Rng where
  t : Nat
deriving DecidableEq, Repr

/-- The call `mulberry32(seed)`: `let t = seed >>> 0`. -/
def mulberry32 (seed : Nat) : Rng := ⟨seed % 4294967296⟩

/-- The three mixing lines of the closure, on the value of the counter after
`t += 0x6d2b79f5`. The bitwise operators first reduce `t` to 32 bits.
```
let x = Math.imul(t ^ (t >>> 15), 1 | t);
x ^= x + Math.imul(x ^ (x >>> 7), 61 | x);
return ((x ^ (x >>> 14)) >>> 0) ...
```
-/
def mixBits (t : Nat) : Nat :=
  let u := t % 4294967296
  let x := imul (u ^^^ (u >>> 15)) (1 ||| u)
  let x := x ^^^ ((x + imul (x ^^^ (x >>> 7)) (61 ||| x)) % 4294967296)
  x ^^^ (x >>> 14)

/-- One call of the closure: the value returned and the closure afterwards. -/
def Rng.next (g : Rng) : ℚ × Rng :=
  let t := roundToDouble (g.t + 0x6d2b79f5)
  ((mixBits t : ℚ) / 4294967296, ⟨t⟩)

/-- The closure `mulberry32(seed)` after `n` calls. -/
def Rng.after (seed : Nat) : Nat → Rng
  | 0 => mulberry32 seed
  | n + 1 => (Rng.after seed n).next.2

/-- The value returned by the `n`-th call (`n ≥ 1`) of `mulberry32(seed)`. -/
def nthOutput (seed n : Nat) : ℚ := (Rng.after seed (n - 1)).next.1

/-- The generator as the specification words it: the mixing steps applied to a
counter that wraps at 32 bits, `(seed + n * 0x6d2b79f5) mod 2 ^ 32`, divided by
`2 ^ 32`. -/
def wrappedOutput (seed n : Nat) : ℚ :=
  (mixBits ((seed + n * 0x6d2b79f5) % 4294967296) : ℚ) / 4294967296

/-! ## Sigil generator: `generateSigil` -/

/-- A character of the grid; `none` is JavaScript `undefined`. -/
abbrev Cell := Option Char

/-- The grid `grid[y][x]`: a list of rows. -/
abbrev Grid := List (List Cell)

/-- The glyph set `const chars = "/\\|_-+=*#@"`. -/
def chars : List Char := ['/', '\\', '|', '_', '-', '+', '=', '*', '#', '@']

/-- The grid of `h = 11` rows of `w = 23` spaces allocated by `Array.from`. -/
def blankGrid : Grid := List.replicate 11 (List.replicate 23 (some ' '))

/-- The read `grid[y][x]`. -/
def cellAt (grid : Grid) (y x : Nat) : Cell := (grid.getD y []).getD x none

/-- The write `grid[y][x] = ch`, for a cell that exists. -/
def setCell (grid : Grid) (y x : Nat) (ch : Cell) : Grid :=
  grid.set y ((grid.getD y []).set x ch)

/-- The fill chance of cell `(y, x)`, with `cx = (w - 1) / 2` and
`cy = (h - 1) / 2`:
```
const dx = Math.abs(x - cx);
const dy = Math.abs(y - cy);
const weight = Math.max(0, 1 - dx / cx) * Math.max(0, 1 - dy / cy);
const fillChance = 0.08 + 0.48 * weight;
```
The arithmetic is exact here. -/
def fillChance (y x : Nat) : ℚ :=
  let cx : ℚ := (23 - 1) / 2
  let cy : ℚ := (11 - 1) / 2
  let dx : ℚ := |(x : ℚ) - cx|
  let dy : ℚ := |(y : ℚ) - cy|
  let weight : ℚ := max 0 (1 - dx / cx) * max 0 (1 - dy / cy)
  0.08 + 0.48 * weight

/-- The glyph lookup `chars[Math.floor(r * chars.length)]` for a draw `r`. -/
def pickGlyph (r : ℚ) : Cell :=
  let i : Int := ⌊r * 10⌋
  if 0 ≤ i then chars[i.toNat]? else none

/-- The body of the inner loop of the mirrored fill, for row `y` and column
`x`. The generator is any state `σ` with a draw function `rng`; one draw
decides whether the cell is filled, a second one (only when filled) picks the
glyph; the character goes to `(y, x)` and to `(y, w - 1 - x)`. -/
def fillCell {σ : Type} (rng : σ → ℚ × σ) (y : Nat) (st : σ × Grid) (x : Nat) : σ × Grid :=
  let d := rng st.1
  if d.1 < fillChance y x then
    let d2 := rng d.2
    (d2.2, setCell (setCell st.2 y x (pickGlyph d2.1)) y (23 - 1 - x) (pickGlyph d2.1))
  else
    (d.2, setCell (setCell st.2 y x (some ' ')) y (23 - 1 - x) (some ' '))

/-- The inner loop `for (let x = 0; x <= Math.floor(w / 2); x++)`. -/
def fillRow {σ : Type} (rng : σ → ℚ × σ) (st : σ × Grid) (y : Nat) : σ × Grid :=
  (List.range 12).foldl (fillCell rng y) st

/-- The outer loop `for (let y = 0; y < h; y++)` of the mirrored fill. -/
def fillGrid {σ : Type} (rng : σ → ℚ × σ) (st : σ × Grid) : σ × Grid :=
  (List.range 11).foldl (fillRow rng) st

/-- The body of the spine loop:
`if (rng() < 0.55) grid[y][Math.floor(cx)] = rng() < 0.5 ? "|" : "+"`. -/
def spineCell {σ : Type} (rng : σ → ℚ × σ) (st : σ × Grid) (y : Nat) : σ × Grid :=
  let d := rng st.1
  if d.1 < 0.55 then
    let d2 := rng d.2
    (d2.2, setCell st.2 y 11 (some (if d2.1 < 0.5 then '|' else '+')))
  else
    (d.2, st.2)

/-- The spine loop `for (let y = 1; y < h - 1; y++)`. -/
def spinePass {σ : Type} (rng : σ → ℚ × σ) (st : σ × Grid) : σ × Grid :=
  (List.range' 1 9).foldl (spineCell rng) st

/-- The corner marks: `grid[0][0]`, `grid[0][w - 1]`, `grid[h - 1][0]` and
`grid[h - 1][w - 1]` are set to `"+"`. -/
def cornerMarks (grid : Grid) : Grid :=
  setCell (setCell (setCell (setCell grid 0 0 (some '+')) 0 22 (some '+')) 10 0 (some '+'))
    10 22 (some '+')

/-- The grid built by `generateSigil` from a generator in state `s0`: mirrored
fill, then spine, then corner marks. Returns the generator's final state too. -/
def sigilGrid {σ : Type} (rng : σ → ℚ × σ) (s0 : σ) : σ × Grid :=
  let st := spinePass rng (fillGrid rng (s0, blankGrid))
  (st.1, cornerMarks st.2)

/-- The call `row.join("")`: an `undefined` element contributes nothing. -/
def joinRow (row : List Cell) : List Char := row.filterMap id

/-- The call `lines.join("\n")` on the characters of the lines. -/
def joinLines : List (List Char) → List Char
  | [] => []
  | [line] => line
  | line :: rest => line ++ '\n' :: joinLines rest

/-- The string returned for a grid: `grid.map((row) => row.join("")).join("\n")`. -/
def renderGrid (grid : Grid) : String := String.mk (joinLines (grid.map joinRow))

/-- The grid of `generateSigil(seed)` before it is joined into a string. -/
def generateSigilGrid (seed : Nat) : Grid :=
  (sigilGrid Rng.next (mulberry32 seed)).2

/-- The function `generateSigil(seed)`: the string it returns. -/
def generateSigil (seed : Nat) : String :=
  renderGrid (generateSigilGrid seed)

/-- The character at row `y`, column `x` of a returned string, whose rows are
`w = 23` characters wide and followed by one separator. -/
def charAt (s : String) (y x : Nat) : Option Char := s.data[(23 + 1) * y + x]?

/-- The contents a cell of a sigil may have: a space or a glyph of `chars`. -/
def allowedCells : List Cell := some ' ' :: chars.map some

/-- The shape of a sigil grid: `h = 11` rows of `w = 23` cells. -/
def GridShape (grid : Grid) : Prop :=
  grid.length = 11 ∧ ∀ row ∈ grid, row.length = 23

/-- The invariant kept by every write of `generateSigil`: the grid has its
shape, every row reads the same from both ends, and every cell holds a space or
a glyph. -/
structure GridInv (grid : Grid) : Prop where
  shape : GridShape grid
  mirror : ∀ y x, x < 23 → cellAt grid y x = cellAt grid y (22 - x)
  glyphs : ∀ y x, y < 11 → x < 23 → cellAt grid y x ∈ allowedCells

/-! ### The spine step with other characters -/

/-- The body of the spine loop when it writes `first` instead of `"|"` and
`second` instead of `"+"`; the draws from the generator are the same. -/
def spineCellWith {σ : Type} (rng : σ → ℚ × σ) (first second : Char) (st : σ × Grid)
    (y : Nat) : σ × Grid :=
  let d := rng st.1
  if d.1 < 0.55 then
    let d2 := rng d.2
    (d2.2, setCell st.2 y 11 (some (if d2.1 < 0.5 then first else second)))
  else
    (d.2, st.2)

/-- The spine loop with the characters `first` and `second`. -/
def spinePassWith {σ : Type} (rng : σ → ℚ × σ) (first second : Char) (st : σ × Grid) :
    σ × Grid :=
  (List.range' 1 9).foldl (spineCellWith rng first second) st

/-- The grid of `generateSigil(seed)` when the spine step writes `first` and
`second`: mirrored fill, spine, corner marks. -/
def generateSigilGridWith (first second : Char) (seed : Nat) : Grid :=
  cornerMarks (spinePassWith Rng.next first second
    (fillGrid Rng.next (mulberry32 seed, blankGrid))).2

/-- The grid of `generateSigil(seed)` when the spine step writes nothing:
mirrored fill, then corner marks. -/
def generateSigilGridNoSpine (seed : Nat) : Grid :=
  cornerMarks (fillGrid Rng.next (mulberry32 seed, blankGrid)).2

/-! ### The generator closures of a page

Each call of `mulberry32` creates a closure with a counter of its own. The
store below holds the counters of all closures created so far, so that calls of
`generateSigil` can be placed in a history of earlier calls and of draws from
other generators. -/

/-- The counters `t` of the closures created so far, oldest first. -/
structure Heap where
  cells : List Nat
deriving DecidableEq, Repr

/-- The call `mulberry32(seed)` in a store: a new closure, named by its position. -/
def Heap.mulberry32 (seed : Nat) (heap : Heap) : Nat × Heap :=
  (heap.cells.length, ⟨heap.cells ++ [seed % 4294967296]⟩)

/-- A call of the closure at position `ref`: it reads and updates its own
counter. -/
def Heap.call (ref : Nat) (heap : Heap) : ℚ × Heap :=
  let d := Rng.next ⟨heap.cells.getD ref 0⟩
  (d.1, ⟨heap.cells.set ref d.2.t⟩)

/-- The closure at position `ref` of the store has the counter of `g`, and the
closures before it have the counters listed in `keep`. -/
def Heap.Owns (ref : Nat) (keep : List Nat) (heap : Heap) (g : Rng) : Prop :=
  heap.cells[ref]? = some g.t ∧ ∀ r, r < ref → heap.cells[r]? = keep[r]?

/-- The call `generateSigil(seed)` run in a store: the string returned and the
store afterwards. -/
def Heap.generateSigil (seed : Nat) (heap : Heap) : String × Heap :=
  let m := Heap.mulberry32 seed heap
  let st := sigilGrid (Heap.call m.1) m.2
  (renderGrid st.2, st.1)

/-! ## Doubles

The numbers of the scheduler are IEEE-754 doubles. A finite double is a
rational, and an arithmetic operation of JavaScript returns the double nearest
to the exact result. -/

/-- Rounding to the nearest integer, ties to the even one. -/
def roundHalfEven (y : ℚ) : Int :=
  if 2 * (y - ⌊y⌋) < 1 then ⌊y⌋
  else if 1 < 2 * (y - ⌊y⌋) then ⌊y⌋ + 1
  else if ⌊y⌋ % 2 = 0 then ⌊y⌋
  else ⌊y⌋ + 1

/-- The exponent of the spacing of the doubles around `q`: a double has a
significand of 53 bits, so between `2 ^ k` and `2 ^ (k + 1)` the doubles are
`2 ^ (k - 52)` apart; the subnormal doubles are `2 ^ (-1074)` apart. -/
def ulpExp (q : ℚ) : Int := max (Int.log 2 |q| - 52) (-1074)

/-- The double nearest to the rational `q` (round to nearest, ties to the even
significand): `q` rounded to a multiple of the spacing of the doubles around
it. The exponent is not bounded above: a result of magnitude `2 ^ 1024` or more
stands for `Infinity` or `-Infinity`, to which JavaScript rounds exactly the
numbers with such a result. -/
def fl (q : ℚ) : ℚ :=
  if q < 0 then -((roundHalfEven (-q / 2 ^ ulpExp q) : ℚ) * 2 ^ ulpExp q)
  else (roundHalfEven (q / 2 ^ ulpExp q) : ℚ) * 2 ^ ulpExp q

/-! ## Animation scheduler of the hero canvas (`initAsciiCanvas`)

Timestamps, sizes and the simulation time are rationals that stand for doubles;
the operations of the source on them round to the nearest double (`fl`). A
state records, next to the variables of the source, what the handlers have
done so far: how many frame callbacks are registered with
`requestAnimationFrame`, how often `draw()` and `resize()` were called, and the
timestamps of the draws made by `frame`. -/

/-- The variables of `initAsciiCanvas` and the effects so far. -/
structure Sched where
  /-- The constant `prefersReduced` read at startup. -/
  prefersReduced : Bool
  /-- The variable `running`. -/
  running : Bool
  /-- The variable `visible`. -/
  visible : Bool
  /-- The simulation time `t`. -/
  t : ℚ
  /-- The variable `dpr`. -/
  dpr : Int
  /-- The number last assigned to `canvas.width`; `none` is `Infinity`. -/
  canvasWidth : Option Int
  /-- The number last assigned to `canvas.height`; `none` is `Infinity`. -/
  canvasHeight : Option Int
  /-- The variable `last`, the timestamp of the last draw made by `frame`. -/
  last : ℚ
  /-- Callbacks registered by `requestAnimationFrame(frame)` and not yet run. -/
  pending : Nat
  /-- Number of calls of `draw()` so far. -/
  draws : Nat
  /-- Number of calls of `resize()` so far. -/
  resizes : Nat
  /-- Timestamps of the draws made by `frame`, newest first. -/
  frameDraws : List ℚ
deriving DecidableEq

/-- The call `requestAnimationFrame(frame)`: one more callback is registered. -/
def requestFrame (s : Sched) : Sched := { s with pending := s.pending + 1 }

/-- The call `draw()`, as an effect that is counted. -/
def draw (s : Sched) : Sched := { s with draws := s.draws + 1 }

/-- The expression `Math.max(1, Math.floor(size * dpr))` of `resize()`: the
product is a double, the exact product rounded, and the floor is taken of that
double. A product that overflows (it rounds to `2 ^ 1024` or beyond) is
`Infinity`, which `Math.floor` and `Math.max` pass on: the result `none`. -/
def backingSize (size : ℚ) (dpr : Int) : Option Int :=
  if 2 ^ 1024 ≤ fl (size * dpr) then none else some (max 1 ⌊fl (size * dpr)⌋)

/-- The function `resize()`, for a surface of `width` by `height` CSS pixels
and a reported `window.devicePixelRatio` of `ratio` (a falsy ratio counts as 1):
```
dpr = Math.max(1, Math.floor(window.devicePixelRatio || 1));
canvas.width = Math.max(1, Math.floor(rect.width * dpr));
canvas.height = Math.max(1, Math.floor(rect.height * dpr));
```
-/
def resize (width height ratio : ℚ) (s : Sched) : Sched :=
  let dpr : Int := max 1 ⌊if ratio = 0 then 1 else ratio⌋
  { s with
    dpr := dpr
    canvasWidth := backingSize width dpr
    canvasHeight := backingSize height dpr
    resizes := s.resizes + 1 }

/-- The frame budget `1000 / 12` of `frame`, as the code computes it: the
quotient of the doubles 1000 and 12, rounded to the nearest double. -/
def frameBudget : ℚ := fl (1000 / 12)

/-- The frame callback `frame(ts)`:
```
if (!running || !visible) return;
if (ts - last < 1000 / 12) { requestAnimationFrame(frame); return; }
last = ts;
t += 0.15;
draw();
requestAnimationFrame(frame);
```
The difference `ts - last` and the sum `t + 0.15` are rounded to doubles, and
`0.15` is the double nearest to that decimal. -/
def frame (ts : ℚ) (s : Sched) : Sched :=
  if !s.running || !s.visible then s
  else if fl (ts - s.last) < frameBudget then requestFrame s
  else
    requestFrame
      (draw { s with last := ts, t := fl (s.t + fl 0.15), frameDraws := ts :: s.frameDraws })

/-- The callback of the `IntersectionObserver`:
`visible = entries.some((e) => e.isIntersecting)`, then
`if (visible && running) requestAnimationFrame(frame)`. -/
def onIntersection (entries : List Bool) (s : Sched) : Sched :=
  let s1 := { s with visible := entries.any id }
  if s1.visible && s1.running then requestFrame s1 else s1

/-- The click handler of the pause button: `running = !running`, then
`if (running && visible) requestAnimationFrame(frame)`. -/
def onPauseClick (s : Sched) : Sched :=
  let s1 := { s with running := !s.running }
  if s1.running && s1.visible then requestFrame s1 else s1

/-- The callback of the `ResizeObserver` and the handler of the window `resize`
event, which have the same body: `resize(); if (running && visible) draw();`. -/
def onResize (width height ratio : ℚ) (s : Sched) : Sched :=
  let s1 := resize width height ratio s
  if s1.running && s1.visible then draw s1 else s1

/-- The state at the end of `initAsciiCanvas`: the initial values of the
variables, then `resize()`, then
`if (running && visible) requestAnimationFrame(frame); else draw();`. -/
def start (prefersReduced : Bool) (width height ratio : ℚ) : Sched :=
  let s0 : Sched :=
    { prefersReduced := prefersReduced
      running := !prefersReduced
      visible := true
      t := 0
      dpr := max 1 ⌊if ratio = 0 then 1 else ratio⌋
      canvasWidth := some 0
      canvasHeight := some 0
      last := 0
      pending := 0
      draws := 0
      resizes := 0
      frameDraws := [] }
  let s1 := resize width height ratio s0
  if s1.running && s1.visible then requestFrame s1 else draw s1

/-- What the host can deliver to the scheduler. -/
inductive Event where
  /-- An animation frame with timestamp `ts`. -/
  | tick (ts : ℚ)
  /-- A click on the pause button. -/
  | pauseClick
  /-- A report of the `IntersectionObserver`. -/
  | intersection (entries : List Bool)
  /-- A size change reported by the `ResizeObserver` or the window. -/
  | resize (width height ratio : ℚ)
deriving DecidableEq

/-- An animation frame: the host runs the callbacks registered before the frame,
all with the same timestamp; callbacks registered meanwhile wait for the next
frame. -/
def tick (ts : ℚ) (s : Sched) : Sched :=
  (frame ts)^[s.pending] { s with pending := 0 }

/-- Delivery of one event. The pause button is disabled under reduced motion
(`pauseBtn.disabled = prefersReduced`), so it delivers no click then. -/
def step (s : Sched) : Event → Sched
  | Event.tick ts => tick ts s
  | Event.pauseClick => if s.prefersReduced then s else onPauseClick s
  | Event.intersection entries => onIntersection entries s
  | Event.resize width height ratio => onResize width height ratio s

/-- Delivery of a sequence of events, in order. -/
def run (events : List Event) (s : Sched) : Sched := events.foldl step s

/-- The draws of `frame` are at least the frame budget of the code apart, none
is later than `last`, and `last` is not negative and a multiple of
`2 ^ (-46)`, the spacing of the doubles between 64 and 128. -/
def FrameLogInv (s : Sched) : Prop :=
  s.frameDraws.Pairwise (fun later earlier => earlier + frameBudget ≤ later) ∧
    (∀ d ∈ s.frameDraws, d ≤ s.last) ∧ 0 ≤ s.last ∧ ∃ m : Int, s.last = m / 2 ^ 46

/-- The ticks number `1, ..., n` of a tick source that fires every `period`
milliseconds, counted from the time `base`. -/
def tickSource (base period : ℚ) (n : Nat) : List Event :=
  (List.range n).map (fun k : Nat => Event.tick (base + ((k : ℚ) + 1) * period))

/-! ## The draw step of the hero canvas (`draw`, `field`, `clamp01`)

The draw step is generic in the number type `K` (an ordered field with a floor
function, such as the rationals or the reals); `Math.sin` and `Math.cos` are
parameters of `field`. Arithmetic is exact. A division by zero is not a fault
in JavaScript (it yields `NaN` or an infinity), so the divisions of the draw
step are listed by their divisors (`drawDivisors`); the opacity computed from
them for each glyph is not modelled as a value. -/

/-- The function `clamp01(x)`: `Math.max(0, Math.min(1, x))`. -/
def clamp01 {K : Type} [LinearOrderedField K] (x : K) : K := max 0 (min 1 x)

/-- The function `field(x, y, time)`:
```
const nx = x / 220;
const ny = y / 220;
const a = Math.sin((nx * 7.0 + time * 0.8) + Math.sin(ny * 2.2));
const b = Math.cos((ny * 6.5 - time * 0.7) + Math.cos(nx * 2.0));
const c = Math.sin((nx + ny) * 6.0 + time * 1.2);
return (a + b + c) / 3;
```
-/
def field {K : Type} [LinearOrderedField K] (sin cos : K → K) (x y time : K) : K :=
  let nx : K := x / 220
  let ny : K := y / 220
  let a : K := sin ((nx * 7.0 + time * 0.8) + sin (ny * 2.2))
  let b : K := cos ((ny * 6.5 - time * 0.7) + cos (nx * 2.0))
  let c : K := sin ((nx + ny) * 6.0 + time * 1.2)
  (a + b + c) / 3

/-- The glyph cell size of `draw` for a surface of `w` by `h` CSS pixels:
`Math.max(11, Math.floor(Math.min(w, h) / 34))`. -/
def cellSize {K : Type} [LinearOrderedField K] [FloorRing K] (w h : K) : Int :=
  max 11 ⌊min w h / 34⌋

/-- The glyph ramp `const chars = " .:-=+*#%@"` of `draw`. -/
def rampChars : List Char := [' ', '.', ':', '-', '=', '+', '*', '#', '%', '@']

/-- The glyph index of `draw` for a field value `v`:
```
const v01 = clamp01((v + 1) / 2);
const idx = Math.floor(v01 * (chars.length - 1));
```
-/
def glyphIndex {K : Type} [LinearOrderedField K] [FloorRing K] (v : K) : Int :=
  ⌊clamp01 ((v + 1) / 2) * (10 - 1)⌋

/-- The glyph of `draw` for a field value `v`: the lookup `chars[idx]`, which is
`undefined` (`none`) outside the ramp. -/
def rampGlyph {K : Type} [LinearOrderedField K] [FloorRing K] (v : K) : Cell :=
  if 0 ≤ glyphIndex v then rampChars[(glyphIndex v).toNat]? else none

/-- The values taken by the variable of a loop
`for (let x = 0; x < extent + cell; x += cell)`: the multiples `k * cell` below
`extent + cell`, in order. -/
def loopPositions {K : Type} [LinearOrderedField K] [FloorRing K] (extent : K) (cell : Int) :
    List K :=
  (List.range ⌈(extent + (cell : K)) / (cell : K)⌉₊).map (fun k : Nat => (k : K) * (cell : K))

/-- The glyphs drawn by `draw` at simulation time `time`, as the arguments of
the calls `ctx.fillText(ch, x, y)` in the order of the two loops (rows `y`
outside, columns `x` inside). -/
def drawGlyphs {K : Type} [LinearOrderedField K] [FloorRing K] (sin cos : K → K)
    (w h time : K) : List (Cell × K × K) :=
  (loopPositions h (cellSize w h)).flatMap (fun y =>
    (loopPositions w (cellSize w h)).map (fun x => (rampGlyph (field sin cos x y time), x, y)))

/-- The divisors of the divisions made for one glyph, in the order of
evaluation: `x / 220`, `y / 220` and `(a + b + c) / 3` in `field`, then
`(v + 1) / 2`, then `x / w` twice and `y / h` twice in
`Math.min(x / w, 1 - x / w)` and `Math.min(y / h, 1 - y / h)`. -/
def glyphDivisors {K : Type} [LinearOrderedField K] (w h : K) : List K :=
  [220, 220, 3, 2, w, w, h, h]

/-- The divisors of all divisions made by one call of `draw()`: first
`Math.min(w, h) / 34`, then those of every glyph. -/
def drawDivisors {K : Type} [LinearOrderedField K] [FloorRing K] (w h : K) : List K :=
  34 :: (loopPositions h (cellSize w h)).flatMap (fun _ =>
    (loopPositions w (cellSize w h)).flatMap (fun _ => glyphDivisors w h))

/-! ## Colour helpers of the element colour tuner
(`src/tools/element_color_tuner_single_page_webapp.jsx`)

Channel values are integers; strings are lists of characters. -/

/-- The conversion `n | 0` of an integer to a signed 32-bit integer. -/
def toInt32 (n : Int) : Int := (n + 2147483648) % 4294967296 - 2147483648

/-- The helper `clamp255`: `Math.max(0, Math.min(255, n | 0))`. -/
def clamp255 (n : Int) : Int := max 0 (min 255 (toInt32 n))

/-- The call `v.toString(16)` for a non-negative integer: its hexadecimal
digits, lowercase, without leading zeros. -/
def toString16 (v : Nat) : List Char := Nat.toDigits 16 v

/-- The call `s.padStart(2, "0")`. -/
def padStart2 (s : List Char) : List Char := List.replicate (2 - s.length) '0' ++ s

/-- The helper `rgbToHex`:
```
"#" + [clamp255(r), clamp255(g), clamp255(b)]
  .map((v) => v.toString(16).padStart(2, "0")).join("")
```
-/
def rgbToHex (rgb : Int × Int × Int) : String :=
  String.mk ('#' :: ([clamp255 rgb.1, clamp255 rgb.2.1, clamp255 rgb.2.2].map
    (fun v => padStart2 (toString16 v.toNat))).flatten)

/-- The characters removed by `trim()`: JavaScript white space and line
terminators. -/
def isTrimmed (c : Char) : Bool :=
  c.toNat ∈ [0x9, 0xA, 0xB, 0xC, 0xD, 0x20, 0xA0, 0x1680, 0x2028, 0x2029, 0x202F, 0x205F,
      0x3000, 0xFEFF] ||
    (0x2000 ≤ c.toNat && c.toNat ≤ 0x200A)

/-- The call `hex.trim()` on the characters of a string. -/
def trim (s : List Char) : List Char :=
  ((s.dropWhile isTrimmed).reverse.dropWhile isTrimmed).reverse

/-- The value of a character of the class `[a-fA-F\d]` as a hexadecimal digit,
`none` for any other character. -/
def hexValue (c : Char) : Option Nat :=
  if '0' ≤ c ∧ c ≤ '9' then some (c.toNat - 48)
  else if 'a' ≤ c ∧ c ≤ 'f' then some (c.toNat - 87)
  else if 'A' ≤ c ∧ c ≤ 'F' then some (c.toNat - 55)
  else none

/-- The call `parseInt(m, 16)` on a group of two characters of the class
`[a-fA-F\d]`; `none` when a character is outside the class. -/
def parseHex2 (hi lo : Char) : Option Int :=
  match hexValue hi, hexValue lo with
  | some a, some b => some ((16 * a + b : Nat) : Int)
  | _, _ => none

/-- The helper `hexToRgb`:
```
const m = /^#?([a-fA-F\d]{2})([a-fA-F\d]{2})([a-fA-F\d]{2})$/.exec(hex.trim());
return m ? [parseInt(m[1], 16), parseInt(m[2], 16), parseInt(m[3], 16)] : [0, 0, 0];
```
-/
def hexToRgb (hex : String) : List Int :=
  let s := trim hex.data
  let body := match s with
    | '#' :: rest => rest
    | _ => s
  match body with
  | [r1, r0, g1, g0, b1, b0] =>
    match parseHex2 r1 r0, parseHex2 g1 g0, parseHex2 b1 b0 with
    | some r, some g, some b => [r, g, b]
    | _, _, _ => [0, 0, 0]
  | _ => [0, 0, 0]


/-! # Theorems -/

/-! ## The generator `mulberry32` -/

theorem imul_lt (a b : Nat) : imul a b < 4294967296 :=
  Nat.mod_lt _ (by norm_num)

theorem xor_lt_u32 {a b : Nat} (ha : a < 4294967296) (hb : b < 4294967296) :
    a ^^^ b < 4294967296 := by
  have h32 : (4294967296 : Nat) = 2 ^ 32 := by norm_num
  rw [h32] at ha hb ⊢
  exact Nat.xor_lt_two_pow ha hb

theorem shiftRight_le_self (a k : Nat) : a >>> k ≤ a := by
  rw [Nat.shiftRight_eq_div_pow]
  exact Nat.div_le_self _ _

/-- The mixed value is an unsigned 32-bit integer, whatever the counter. -/
theorem mixBits_lt (t : Nat) : mixBits t < 4294967296 := by
  unfold mixBits
  have hx := xor_lt_u32 (imul_lt (t % 4294967296 ^^^ (t % 4294967296) >>> 15) (1 ||| t % 4294967296))
    (Nat.mod_lt (imul (t % 4294967296 ^^^ (t % 4294967296) >>> 15) (1 ||| t % 4294967296) +
      imul (imul (t % 4294967296 ^^^ (t % 4294967296) >>> 15) (1 ||| t % 4294967296) ^^^
        imul (t % 4294967296 ^^^ (t % 4294967296) >>> 15) (1 ||| t % 4294967296) >>> 7)
        (61 ||| imul (t % 4294967296 ^^^ (t % 4294967296) >>> 15) (1 ||| t % 4294967296)))
      (show 0 < 4294967296 by norm_num))
  exact xor_lt_u32 hx (lt_of_le_of_lt (shiftRight_le_self _ _) hx)

/-- Every call of the closure returns a value in `[0, 1)`, in every state. -/
theorem Rng.next_range (g : Rng) : 0 ≤ g.next.1 ∧ g.next.1 < 1 := by
  have h := mixBits_lt (roundToDouble (g.t + 0x6d2b79f5))
  have hq : ((mixBits (roundToDouble (g.t + 0x6d2b79f5)) : ℕ) : ℚ) < 4294967296 := by
    exact_mod_cast h
  constructor
  · simp only [Rng.next]; positivity
  · simp only [Rng.next]
    rw [div_lt_one (by norm_num)]
    exact hq

/-- While the exact sum stays below `2 ^ 53` the counter is exact. -/
theorem Rng.after_exact (seed n : Nat) (h : seed % 4294967296 + n * 0x6d2b79f5 < 2 ^ 53) :
    (Rng.after seed n).t = seed % 4294967296 + n * 0x6d2b79f5 := by
  induction n with
  | zero => simp [Rng.after, mulberry32]
  | succ k ih =>
    have hk : seed % 4294967296 + k * 0x6d2b79f5 < 2 ^ 53 := by
      have : k * 0x6d2b79f5 ≤ (k + 1) * 0x6d2b79f5 := Nat.mul_le_mul_right _ (Nat.le_succ k)
      omega
    have e := ih hk
    simp only [Rng.after, Rng.next, e]
    have : seed % 4294967296 + k * 0x6d2b79f5 + 0x6d2b79f5
        = seed % 4294967296 + (k + 1) * 0x6d2b79f5 := by ring
    rw [this, roundToDouble, if_pos h]

/-- While `seed + n * 0x6d2b79f5` stays below `2 ^ 53` (at least the first
4917757 calls for every seed), the `n`-th output is the one of the counter
that wraps at 32 bits. -/
theorem nthOutput_eq_wrappedOutput_of_lt (seed n : Nat) (hn : 1 ≤ n)
    (h : seed % 4294967296 + n * 0x6d2b79f5 < 2 ^ 53) :
    nthOutput seed n = wrappedOutput seed n := by
  obtain ⟨k, rfl⟩ : ∃ k, n = k + 1 := ⟨n - 1, by omega⟩
  have hk : seed % 4294967296 + k * 0x6d2b79f5 < 2 ^ 53 := by
    have : k * 0x6d2b79f5 ≤ (k + 1) * 0x6d2b79f5 := Nat.mul_le_mul_right _ (Nat.le_succ k)
    omega
  have e := Rng.after_exact seed k hk
  have e2 : seed % 4294967296 + k * 0x6d2b79f5 + 0x6d2b79f5
      = seed % 4294967296 + (k + 1) * 0x6d2b79f5 := by ring
  have hmix : ∀ a b : Nat, a % 4294967296 = b % 4294967296 → mixBits a = mixBits b := by
    intro a b hab
    simp only [mixBits, hab]
  simp only [nthOutput, wrappedOutput, Rng.next, Nat.add_sub_cancel, e]
  rw [e2, roundToDouble, if_pos h]
  rw [hmix (seed % 4294967296 + (k + 1) * 0x6d2b79f5) ((seed + (k + 1) * 0x6d2b79f5) % 4294967296)
    (by omega)]

/-! ### The counter stays in the range of the doubles -/

/-- The search of `ulpFrom` returns a power of two that is minimal, and it stops
before the fuel is used up unless it reports the last power tried. -/
theorem ulpFrom_spec (n : Nat) (fuel : Nat) :
    ∀ (u k : Nat), u = 2 ^ k → (k = 0 ∨ 2 ^ 53 ≤ n / 2 ^ (k - 1)) →
      ∃ k', ulpFrom fuel u n = 2 ^ k' ∧ k' ≤ k + fuel ∧
        (k' = 0 ∨ 2 ^ 53 ≤ n / 2 ^ (k' - 1)) ∧ (n / 2 ^ k' < 2 ^ 53 ∨ k' = k + fuel) := by
  induction fuel with
  | zero =>
    intro u k hu hk
    exact ⟨k, hu, le_refl _, hk, Or.inr rfl⟩
  | succ f ih =>
    intro u k hu hk
    by_cases hlt : n / u < 2 ^ 53
    · refine ⟨k, ?_, by omega, hk, Or.inl (hu ▸ hlt)⟩
      rw [ulpFrom, if_pos hlt, hu]
    · obtain ⟨k', h1, h2, h3, h4⟩ := ih (2 * u) (k + 1) (by rw [hu, pow_succ]; ring)
        (Or.inr (by rw [Nat.add_sub_cancel, ← hu]; exact not_lt.mp hlt))
      refine ⟨k', ?_, by omega, h3, ?_⟩
      · rw [ulpFrom, if_neg hlt, h1]
      · rcases h4 with h4 | h4
        · exact Or.inl h4
        · exact Or.inr (by omega)

/-- For a sum below `2 ^ 85` the spacing found is at most `2 ^ 32`, well within
the fuel, and the significand `n / ulp` has at most 53 bits. -/
theorem ulpFrom_small (n : Nat) (hn : n < 2 ^ 85) :
    ∃ k, k ≤ 32 ∧ ulpFrom 1024 1 n = 2 ^ k ∧ n / 2 ^ k < 2 ^ 53 ∧
      (k = 0 ∨ 2 ^ 53 ≤ n / 2 ^ (k - 1)) := by
  obtain ⟨k, h1, _, h3, h4⟩ := ulpFrom_spec n 1024 1 0 rfl (Or.inl rfl)
  have hk : k ≤ 32 := by
    by_contra hc
    have hk33 : 33 ≤ k := by omega
    rcases h3 with h3 | h3
    · omega
    · have hpow : 2 ^ 32 ≤ 2 ^ (k - 1) := Nat.pow_le_pow_right (by norm_num) (by omega)
      have hdiv : n / 2 ^ (k - 1) ≤ n / 2 ^ 32 := Nat.div_le_div_left hpow (by norm_num)
      have : n / 2 ^ 32 < 2 ^ 53 := by omega
      omega
  refine ⟨k, hk, h1, ?_, h3⟩
  rcases h4 with h4 | h4
  · exact h4
  · omega

/-- Adding the increment to a counter of at most `2 ^ 84` gives a double of at
most `2 ^ 84`. -/
theorem roundToDouble_add_le (t : Nat) (ht : t ≤ 2 ^ 84) :
    roundToDouble (t + 0x6d2b79f5) ≤ 2 ^ 84 := by
  by_cases h53 : t + 0x6d2b79f5 < 2 ^ 53
  · rw [roundToDouble, if_pos h53]; omega
  · obtain ⟨k, hk, hu, hq, hmin⟩ := ulpFrom_small (t + 0x6d2b79f5) (by omega)
    rw [roundToDouble, if_neg h53]
    simp only [hu]
    interval_cases k <;> simp only [Nat.reducePow, Nat.reduceSub] at hq hmin ⊢ <;>
      split_ifs <;> omega

/-- The counter of `mulberry32(seed)` never exceeds `2 ^ 84`, however often the
closure is called. -/
theorem Rng.after_le (seed n : Nat) : (Rng.after seed n).t ≤ 2 ^ 84 := by
  induction n with
  | zero =>
    have : seed % 4294967296 < 4294967296 := Nat.mod_lt _ (by norm_num)
    simp only [Rng.after, mulberry32]
    omega
  | succ k ih =>
    simp only [Rng.after, Rng.next]
    exact roundToDouble_add_le _ ih

/-- At `2 ^ 84` the increment is less than half the spacing of the doubles and
the counter stops advancing. -/
theorem roundToDouble_stalls : roundToDouble (2 ^ 84 + 0x6d2b79f5) = 2 ^ 84 := by decide

/-- C5: for every seed and every `n ≥ 1`, the `n`-th value returned by
`mulberry32(seed)` is an unsigned 32-bit integer divided by `2 ^ 32`, hence a
number `v` with `0 ≤ v < 1`. The closure is a total function of its state, so
no call fails. -/
theorem mulberry32_nth_output_in_unit_interval (seed n : Nat) (hn : 1 ≤ n) :
    0 ≤ nthOutput seed n ∧ nthOutput seed n < 1 ∧
      ∃ k : Nat, k < 4294967296 ∧ nthOutput seed n = (k : ℚ) / 4294967296 := by
  have _ := hn
  refine ⟨(Rng.next_range _).1, (Rng.next_range _).2, ?_⟩
  exact ⟨mixBits (roundToDouble ((Rng.after seed (n - 1)).t + 0x6d2b79f5)), mixBits_lt _, rfl⟩

/-- Witness of C5: the first output of `mulberry32(0)`. -/
theorem mulberry32_nth_output_in_unit_interval_witness :
    0 ≤ nthOutput 0 1 ∧ nthOutput 0 1 < 1 ∧
      ∃ k : Nat, k < 4294967296 ∧ nthOutput 0 1 = (k : ℚ) / 4294967296 :=
  mulberry32_nth_output_in_unit_interval 0 1 (by decide)

/-- C6 (failing input): with seed 0 the exact sum reaches `2 ^ 53` at the
4917759-th call; the counter of the code is then rounded to the even double
9007199260973068 while the exact sum is 9007199260973067, and the output
2430946484 / 2 ^ 32 differs from the output 3767445004 / 2 ^ 32 of the counter
that wraps at 32 bits. -/
theorem mulberry32_counter_not_wrapped_at_call_4917759 :
    (Rng.after 0 4917758).t = 4917758 * 0x6d2b79f5 ∧
    (Rng.after 0 4917758).next.2.t = 9007199260973068 ∧
    nthOutput 0 4917759 = 2430946484 / 4294967296 ∧
    wrappedOutput 0 4917759 = 3767445004 / 4294967296 ∧
    nthOutput 0 4917759 ≠ wrappedOutput 0 4917759 := by
  have h : (Rng.after 0 4917758).t = 9007197429407254 :=
    Rng.after_exact 0 4917758 (by norm_num)
  have e : Rng.after 0 (4917759 - 1) = ⟨9007197429407254⟩ := by
    have h1 : (4917759 - 1 : Nat) = 4917758 := by norm_num
    rw [h1]
    cases hh : Rng.after 0 4917758 with
    | mk t => rw [hh] at h; simp only at h; rw [h]
  have hr : roundToDouble (9007197429407254 + 0x6d2b79f5) = 9007199260973068 := by decide
  have m1 : mixBits 9007199260973068 = 2430946484 := by decide
  have m2 : mixBits ((0 + 4917759 * 0x6d2b79f5) % 4294967296) = 3767445004 := by decide
  have o1 : nthOutput 0 4917759 = 2430946484 / 4294967296 := by
    simp only [nthOutput, e, Rng.next, hr, m1]; norm_num
  have o2 : wrappedOutput 0 4917759 = 3767445004 / 4294967296 := by
    simp only [wrappedOutput, m2]; norm_num
  refine ⟨by rw [h], ?_, o1, o2, ?_⟩
  · cases hh : Rng.after 0 4917758 with
    | mk t => rw [hh] at h; simp only at h; subst h; simp only [Rng.next, hr]
  · rw [o1, o2]; norm_num

/-! ## The grid of `generateSigil` -/

theorem foldl_invariant {α β : Type} (P : β → Prop) (f : β → α → β) (l : List α)
    (hf : ∀ b a, a ∈ l → P b → P (f b a)) (b : β) (hb : P b) : P (l.foldl f b) := by
  induction l generalizing b with
  | nil => exact hb
  | cons a l ih =>
    simp only [List.foldl_cons]
    apply ih
    · intro b' a' ha' hb'
      exact hf b' a' (List.mem_cons_of_mem _ ha') hb'
    · exact hf b a (List.mem_cons_self _ _) hb

theorem setCell_shape {g : Grid} (h : GridShape g) (y x : Nat) (c : Cell) :
    GridShape (setCell g y x c) := by
  obtain ⟨hl, hr⟩ := h
  refine ⟨by simp [setCell, hl], ?_⟩
  intro row hrow
  simp only [setCell] at hrow
  rcases List.mem_or_eq_of_mem_set hrow with h1 | h1
  · exact hr row h1
  · subst h1
    rw [List.length_set, List.getD_eq_getElem?_getD]
    by_cases hy : y < g.length
    · rw [List.getElem?_eq_getElem hy]
      exact hr _ (List.getElem_mem _)
    · have := hrow
      rw [List.set_eq_of_length_le (by omega)] at this
      have h2 := hr _ this
      rw [List.length_set, List.getD_eq_getElem?_getD] at h2
      exact h2

theorem cellAt_setCell {g : Grid} (h : GridShape g) {y x : Nat} (hy : y < 11) (hx : x < 23)
    (c : Cell) (y' x' : Nat) :
    cellAt (setCell g y x c) y' x' = if y' = y ∧ x' = x then c else cellAt g y' x' := by
  obtain ⟨hl, hr⟩ := h
  have hyl : y < g.length := by omega
  have hrow : (g[y]).length = 23 := hr _ (List.getElem_mem _)
  simp only [cellAt, setCell, List.getD_eq_getElem?_getD, List.getElem?_set]
  by_cases e : y = y'
  · subst e
    simp only [if_pos hyl, List.getElem?_eq_getElem hyl, Option.getD_some, List.getElem?_set, true_and]
    by_cases e2 : x = x'
    · subst e2
      simp [hrow, hx]
    · have e3 : ¬ x' = x := fun h => e2 h.symm
      simp [e2, e3]
  · have e' : ¬ y' = y := fun h => e h.symm
    simp [e, e']


theorem cellAt_blankGrid (y x : Nat) :
    cellAt blankGrid y x = if y < 11 ∧ x < 23 then some ' ' else none := by
  unfold cellAt blankGrid
  rw [List.getD_eq_getElem?_getD, List.getD_eq_getElem?_getD, List.getElem?_replicate]
  by_cases hy : y < 11
  · rw [if_pos hy, Option.getD_some, List.getElem?_replicate]
    by_cases hx : x < 23
    · rw [if_pos hx, if_pos ⟨hy, hx⟩]; rfl
    · rw [if_neg hx, if_neg (fun h => hx h.2)]; rfl
  · rw [if_neg hy, if_neg (fun h => hy h.1)]; rfl

theorem blankGrid_inv : GridInv blankGrid := by
  refine ⟨⟨List.length_replicate _ _, ?_⟩, ?_, ?_⟩
  · intro row hrow
    rw [List.eq_of_mem_replicate hrow]
    exact List.length_replicate _ _
  · intro y x hx
    have hx' : 22 - x < 23 := by omega
    rw [cellAt_blankGrid, cellAt_blankGrid]
    simp only [hx, hx', and_true]
  · intro y x hy hx
    rw [cellAt_blankGrid, if_pos ⟨hy, hx⟩]
    exact List.mem_cons_self _ _

/-- Writing one character to a cell and to its mirror image keeps the
invariant. -/
theorem GridInv.write_mirrored {g : Grid} (h : GridInv g) {y x : Nat} (hy : y < 11)
    (hx : x < 23) {c : Cell} (hc : c ∈ allowedCells) :
    GridInv (setCell (setCell g y x c) y (23 - 1 - x) c) := by
  have s1 := setCell_shape h.shape y x c
  have hx' : 23 - 1 - x < 23 := by omega
  refine ⟨setCell_shape s1 _ _ _, ?_, ?_⟩
  · intro y' x' hx2
    rw [cellAt_setCell s1 hy hx', cellAt_setCell s1 hy hx', cellAt_setCell h.shape hy hx,
      cellAt_setCell h.shape hy hx]
    split_ifs <;> first | rfl | exact h.mirror _ _ hx2 | (exfalso; omega)
  · intro y' x' hy2 hx2
    rw [cellAt_setCell s1 hy hx', cellAt_setCell h.shape hy hx]
    split
    · exact hc
    · split
      · exact hc
      · exact h.glyphs _ _ hy2 hx2

/-- Writing a character to the centre column keeps the invariant. -/
theorem GridInv.write_centre {g : Grid} (h : GridInv g) {y : Nat} (hy : y < 11)
    {c : Cell} (hc : c ∈ allowedCells) : GridInv (setCell g y 11 c) := by
  refine ⟨setCell_shape h.shape _ _ _, ?_, ?_⟩
  · intro y' x' hx2
    rw [cellAt_setCell h.shape hy (by norm_num), cellAt_setCell h.shape hy (by norm_num)]
    split_ifs <;> first | rfl | exact h.mirror _ _ hx2 | (exfalso; omega)
  · intro y' x' hy2 hx2
    rw [cellAt_setCell h.shape hy (by norm_num)]
    split
    · exact hc
    · exact h.glyphs _ _ hy2 hx2

theorem plus_mem_allowedCells : (some '+' : Cell) ∈ allowedCells := by
  simp [allowedCells, chars]

theorem pickGlyph_mem_allowedCells {r : ℚ} (h0 : 0 ≤ r) (h1 : r < 1) :
    pickGlyph r ∈ allowedCells := by
  have hi0 : 0 ≤ ⌊r * 10⌋ := Int.floor_nonneg.mpr (by positivity)
  have hi1 : ⌊r * 10⌋ < 10 := Int.floor_lt.mpr (by push_cast; linarith)
  simp only [pickGlyph, if_pos hi0]
  have hn : ⌊r * 10⌋.toNat < 10 := by omega
  generalize ⌊r * 10⌋.toNat = n at hn
  interval_cases n <;> simp [allowedCells, chars]

theorem fillCell_inv {σ : Type} (rng : σ → ℚ × σ) (hr : ∀ s, 0 ≤ (rng s).1 ∧ (rng s).1 < 1)
    {y x : Nat} (hy : y < 11) (hx : x < 12) (st : σ × Grid) (h : GridInv st.2) :
    GridInv (fillCell rng y st x).2 := by
  by_cases hc : (rng st.1).1 < fillChance y x
  · simp only [fillCell, if_pos hc]
    exact h.write_mirrored hy (by omega) (pickGlyph_mem_allowedCells (hr _).1 (hr _).2)
  · simp only [fillCell, if_neg hc]
    exact h.write_mirrored hy (by omega) (List.mem_cons_self _ _)

theorem fillRow_inv {σ : Type} (rng : σ → ℚ × σ) (hr : ∀ s, 0 ≤ (rng s).1 ∧ (rng s).1 < 1)
    {y : Nat} (hy : y < 11) (st : σ × Grid) (h : GridInv st.2) :
    GridInv (fillRow rng st y).2 := by
  unfold fillRow
  apply foldl_invariant (fun st : σ × Grid => GridInv st.2) _ _ _ st h
  intro b a ha hb
  exact fillCell_inv rng hr hy (List.mem_range.mp ha) b hb

theorem fillGrid_inv {σ : Type} (rng : σ → ℚ × σ) (hr : ∀ s, 0 ≤ (rng s).1 ∧ (rng s).1 < 1)
    (st : σ × Grid) (h : GridInv st.2) : GridInv (fillGrid rng st).2 := by
  unfold fillGrid
  apply foldl_invariant (fun st : σ × Grid => GridInv st.2) _ _ _ st h
  intro b a ha hb
  exact fillRow_inv rng hr (List.mem_range.mp ha) b hb

theorem spineCell_inv {σ : Type} (rng : σ → ℚ × σ) {y : Nat} (hy : y < 11) (st : σ × Grid)
    (h : GridInv st.2) : GridInv (spineCell rng st y).2 := by
  by_cases hc : (rng st.1).1 < 0.55
  · simp only [spineCell, if_pos hc]
    apply h.write_centre hy
    split <;> simp [allowedCells, chars]
  · simp only [spineCell, if_neg hc]
    exact h

theorem spinePass_inv {σ : Type} (rng : σ → ℚ × σ) (st : σ × Grid) (h : GridInv st.2) :
    GridInv (spinePass rng st).2 := by
  unfold spinePass
  apply foldl_invariant (fun st : σ × Grid => GridInv st.2) _ _ _ st h
  intro b a ha hb
  have := List.mem_range'_1.mp ha
  exact spineCell_inv rng (by omega) b hb

theorem cornerMarks_inv {g : Grid} (h : GridInv g) : GridInv (cornerMarks g) := by
  have h1 : GridInv (setCell (setCell g 0 0 (some '+')) 0 22 (some '+')) :=
    h.write_mirrored (y := 0) (x := 0) (by norm_num) (by norm_num) plus_mem_allowedCells
  exact h1.write_mirrored (y := 10) (x := 0) (by norm_num) (by norm_num) plus_mem_allowedCells

/-- The four corner cells after the corner marks. -/
theorem cornerMarks_corners {g : Grid} (h : GridShape g) :
    cellAt (cornerMarks g) 0 0 = some '+' ∧ cellAt (cornerMarks g) 0 22 = some '+' ∧
    cellAt (cornerMarks g) 10 0 = some '+' ∧ cellAt (cornerMarks g) 10 22 = some '+' := by
  have s1 := setCell_shape h 0 0 (some '+')
  have s2 := setCell_shape s1 0 22 (some '+')
  have s3 := setCell_shape s2 10 0 (some '+')
  unfold cornerMarks
  refine ⟨?_, ?_, ?_, ?_⟩ <;>
    simp [cellAt_setCell s3, cellAt_setCell s2, cellAt_setCell s1, cellAt_setCell h]

/-- The grid built from any generator whose draws lie in `[0, 1)` satisfies the
invariant. -/
theorem sigilGrid_inv {σ : Type} (rng : σ → ℚ × σ) (hr : ∀ s, 0 ≤ (rng s).1 ∧ (rng s).1 < 1)
    (s0 : σ) : GridInv (sigilGrid rng s0).2 := by
  unfold sigilGrid
  exact cornerMarks_inv (spinePass_inv rng _ (fillGrid_inv rng hr _ blankGrid_inv))

theorem generateSigilGrid_inv (seed : Nat) : GridInv (generateSigilGrid seed) :=
  sigilGrid_inv Rng.next Rng.next_range (mulberry32 seed)

/-! ## From the grid to the returned string -/

theorem joinLines_cons_cons (a b : List Char) (rest : List (List Char)) :
    joinLines (a :: b :: rest) = a ++ '\n' :: joinLines (b :: rest) := rfl

theorem joinLines_length (rows : List (List Char)) (h : ∀ r ∈ rows, r.length = 23) :
    (joinLines rows).length + 1 = 24 * rows.length ∨ rows = [] := by
  induction rows with
  | nil => right; rfl
  | cons a rest ih =>
    left
    cases rest with
    | nil => simp [joinLines, h a (List.mem_cons_self _ _)]
    | cons b rest =>
      rcases ih (fun r hr => h r (List.mem_cons_of_mem _ hr)) with h1 | h1
      · rw [joinLines_cons_cons, List.length_append, List.length_cons,
          h a (List.mem_cons_self _ _)]
        simp only [List.length_cons] at h1 ⊢
        omega
      · exact absurd h1 (List.cons_ne_nil _ _)

theorem joinLines_getElem? (rows : List (List Char)) (h : ∀ r ∈ rows, r.length = 23)
    (y x : Nat) (hy : y < rows.length) (hx : x < 23) :
    (joinLines rows)[24 * y + x]? = (rows.getD y [])[x]? := by
  induction rows generalizing y with
  | nil => simp at hy
  | cons a rest ih =>
    have ha : a.length = 23 := h a (List.mem_cons_self _ _)
    cases rest with
    | nil =>
      have : y = 0 := by simpa using hy
      subst this
      simp [joinLines]
    | cons b rest =>
      rw [joinLines_cons_cons]
      cases y with
      | zero =>
        rw [List.getElem?_append_left (by omega)]
        simp
      | succ k =>
        rw [List.getElem?_append_right (by omega), ha]
        have e : 24 * (k + 1) + x - 23 = (24 * k + x) + 1 := by omega
        rw [e, List.getElem?_cons_succ,
          ih (fun r hr => h r (List.mem_cons_of_mem _ hr)) k
            (by simpa using hy)]
        simp

theorem joinLines_separator (rows : List (List Char)) (h : ∀ r ∈ rows, r.length = 23)
    (y : Nat) (hy : y + 1 < rows.length) :
    (joinLines rows)[24 * y + 23]? = some '\n' := by
  induction rows generalizing y with
  | nil => simp at hy
  | cons a rest ih =>
    have ha : a.length = 23 := h a (List.mem_cons_self _ _)
    cases rest with
    | nil => simp at hy
    | cons b rest =>
      rw [joinLines_cons_cons]
      cases y with
      | zero =>
        rw [List.getElem?_append_right (by omega), ha]
        simp
      | succ k =>
        rw [List.getElem?_append_right (by omega), ha]
        have e : 24 * (k + 1) + 23 - 23 = (24 * k + 23) + 1 := by omega
        rw [e, List.getElem?_cons_succ]
        exact ih (fun r hr => h r (List.mem_cons_of_mem _ hr)) k (by simpa using hy)

theorem joinRow_map_some (row : List Cell) (h : ∀ c ∈ row, c ≠ none) :
    (joinRow row).map some = row := by
  induction row with
  | nil => rfl
  | cons c rest ih =>
    have hrest := ih (fun c hc => h c (List.mem_cons_of_mem _ hc))
    cases c with
    | none => exact absurd rfl (h none (List.mem_cons_self _ _))
    | some ch =>
      simp only [joinRow, List.filterMap_cons, id, List.map_cons] at hrest ⊢
      rw [hrest]

theorem none_not_mem_allowedCells : (none : Cell) ∉ allowedCells := by
  simp [allowedCells]

theorem newline_not_mem_allowedCells : (some '\n' : Cell) ∉ allowedCells := by
  simp [allowedCells, chars]

theorem cellAt_eq_getElem (g : Grid) (y x : Nat) (hy : y < g.length) (hx : x < (g[y]).length) :
    cellAt g y x = (g[y])[x] := by
  simp only [cellAt, List.getD_eq_getElem?_getD, List.getElem?_eq_getElem hy, Option.getD_some,
    List.getElem?_eq_getElem hx]

theorem GridInv.cell_mem {g : Grid} (h : GridInv g) :
    ∀ row ∈ g, ∀ c ∈ row, c ∈ allowedCells := by
  intro row hrow c hc
  obtain ⟨y, hy, rfl⟩ := List.getElem_of_mem hrow
  obtain ⟨x, hx, rfl⟩ := List.getElem_of_mem hc
  have hy' : y < 11 := by rw [← h.shape.1]; exact hy
  have hx' : x < 23 := by rw [← h.shape.2 _ (List.getElem_mem hy)]; exact hx
  rw [← cellAt_eq_getElem g y x hy hx]
  exact h.glyphs y x hy' hx'

theorem GridInv.rows_all_defined {g : Grid} (h : GridInv g) :
    ∀ row ∈ g, (joinRow row).map some = row := by
  intro row hrow
  apply Sigilry.joinRow_map_some
  intro c hc e
  rw [e] at hc
  exact none_not_mem_allowedCells (h.cell_mem row hrow none hc)

theorem GridInv.lines_length {g : Grid} (h : GridInv g) :
    ∀ r ∈ g.map joinRow, r.length = 23 := by
  intro r hr
  obtain ⟨row, hrow, rfl⟩ := List.mem_map.mp hr
  have e := congrArg List.length (h.rows_all_defined row hrow)
  rw [List.length_map] at e
  rw [e]
  exact h.shape.2 row hrow

/-- The character at row `y`, column `x` of the rendered string is the cell
`(y, x)` of the grid. -/
theorem GridInv.charAt_renderGrid {g : Grid} (h : GridInv g) {y x : Nat} (hy : y < 11)
    (hx : x < 23) : charAt (renderGrid g) y x = cellAt g y x := by
  have hyl : y < g.length := by rw [h.shape.1]; exact hy
  have hrow : g[y] ∈ g := List.getElem_mem hyl
  have hxl : x < (g[y]).length := by rw [h.shape.2 _ hrow]; exact hx
  have e1 : (joinLines (g.map joinRow))[24 * y + x]? = ((g.map joinRow).getD y [])[x]? :=
    joinLines_getElem? _ h.lines_length y x (by rw [List.length_map]; exact hyl) hx
  have e2 : (g.map joinRow).getD y [] = joinRow g[y] := by
    rw [List.getD_eq_getElem?_getD, List.getElem?_map, List.getElem?_eq_getElem hyl]
    rfl
  have e3 : (g[y])[x]? = ((joinRow g[y])[x]?).map some := by
    rw [← List.getElem?_map]
    rw [h.rows_all_defined _ hrow]
  show (joinLines (g.map joinRow))[(23 + 1) * y + x]? = cellAt g y x
  rw [show (23 + 1) * y + x = 24 * y + x by norm_num, e1, e2, cellAt_eq_getElem g y x hyl hxl]
  rw [List.getElem?_eq_getElem hxl] at e3
  cases hq : (joinRow g[y])[x]? with
  | none => rw [hq] at e3; simp at e3
  | some c => rw [hq] at e3; simp only [Option.map_some'] at e3; rw [Option.some.inj e3]

theorem GridInv.length_renderGrid {g : Grid} (h : GridInv g) : (renderGrid g).length = 263 := by
  have hl : (g.map joinRow).length = 11 := by rw [List.length_map]; exact h.shape.1
  rcases joinLines_length (g.map joinRow) h.lines_length with h1 | h1
  · show (joinLines (g.map joinRow)).length = 263
    omega
  · rw [h1] at hl; simp at hl

/-- Where the separators are in the rendered string. -/
theorem GridInv.newline_iff {g : Grid} (h : GridInv g) (i : Nat) (hi : i < 263) :
    (renderGrid g).data[i]? = some '\n' ↔ i % 24 = 23 := by
  have hl : (g.map joinRow).length = 11 := by rw [List.length_map]; exact h.shape.1
  have hi24 : i = 24 * (i / 24) + i % 24 := (Nat.div_add_mod i 24).symm
  have hx : i % 24 < 24 := Nat.mod_lt _ (by norm_num)
  by_cases e : i % 24 = 23
  · simp only [e, iff_true]
    have := joinLines_separator (g.map joinRow) h.lines_length (i / 24) (by omega)
    rw [show 24 * (i / 24) + 23 = i by omega] at this
    exact this
  · simp only [e, iff_false]
    have hy : i / 24 < 11 := by omega
    have hx' : i % 24 < 23 := by omega
    have c := h.charAt_renderGrid hy hx'
    simp only [charAt] at c
    rw [show (23 + 1) * (i / 24) + i % 24 = i by omega] at c
    rw [c]
    intro hn
    have := h.glyphs _ _ hy hx'
    rw [hn] at this
    exact newline_not_mem_allowedCells this

/-- C1: for every seed, every row `y` in `0..10` and every column `x` in
`0..22`, the character at `(y, x)` of the output of `generateSigil(seed)` is
the character at `(y, 22 - x)`; this is stated for the grid after the spine
pass and the corner marks, and for the string that is returned. -/
theorem generateSigil_mirror_symmetric (seed y x : Nat) (hy : y < 11) (hx : x < 23) :
    ∃ c : Char,
      cellAt (generateSigilGrid seed) y x = some c ∧
      cellAt (generateSigilGrid seed) y (22 - x) = some c ∧
      charAt (generateSigil seed) y x = some c ∧
      charAt (generateSigil seed) y (22 - x) = some c := by
  have h := generateSigilGrid_inv seed
  have hm := h.mirror y x hx
  have hx' : 22 - x < 23 := by omega
  cases hc : cellAt (generateSigilGrid seed) y x with
  | none =>
    have := h.glyphs y x hy hx
    rw [hc] at this
    exact absurd this none_not_mem_allowedCells
  | some c =>
    refine ⟨c, rfl, ?_, ?_, ?_⟩
    · rw [← hm, hc]
    · rw [generateSigil, h.charAt_renderGrid hy hx, hc]
    · rw [generateSigil, h.charAt_renderGrid hy hx', ← hm, hc]

/-- Witness of C1: seed 0, row 4, column 3. -/
theorem generateSigil_mirror_symmetric_witness :
    ∃ c : Char,
      cellAt (generateSigilGrid 0) 4 3 = some c ∧
      cellAt (generateSigilGrid 0) 4 (22 - 3) = some c ∧
      charAt (generateSigil 0) 4 3 = some c ∧
      charAt (generateSigil 0) 4 (22 - 3) = some c :=
  generateSigil_mirror_symmetric 0 4 3 (by decide) (by decide)

/-- C2: for every seed the four corner characters of `generateSigil(seed)`, at
`(0, 0)`, `(0, 22)`, `(10, 0)` and `(10, 22)`, are the marker `+`, in the grid
and in the returned string (positions 0, 22, 240 and 262). -/
theorem generateSigil_corners_are_plus (seed : Nat) :
    (cellAt (generateSigilGrid seed) 0 0 = some '+' ∧
      cellAt (generateSigilGrid seed) 0 22 = some '+' ∧
      cellAt (generateSigilGrid seed) 10 0 = some '+' ∧
      cellAt (generateSigilGrid seed) 10 22 = some '+') ∧
    (charAt (generateSigil seed) 0 0 = some '+' ∧
      charAt (generateSigil seed) 0 22 = some '+' ∧
      charAt (generateSigil seed) 10 0 = some '+' ∧
      charAt (generateSigil seed) 10 22 = some '+') ∧
    ((generateSigil seed).data[0]? = some '+' ∧
      (generateSigil seed).data[22]? = some '+' ∧
      (generateSigil seed).data[240]? = some '+' ∧
      (generateSigil seed).data[262]? = some '+') := by
  have h := generateSigilGrid_inv seed
  have hs : GridShape (spinePass Rng.next (fillGrid Rng.next (mulberry32 seed, blankGrid))).2 :=
    (spinePass_inv Rng.next _ (fillGrid_inv Rng.next Rng.next_range _ blankGrid_inv)).shape
  have hc : cellAt (generateSigilGrid seed) 0 0 = some '+' ∧
      cellAt (generateSigilGrid seed) 0 22 = some '+' ∧
      cellAt (generateSigilGrid seed) 10 0 = some '+' ∧
      cellAt (generateSigilGrid seed) 10 22 = some '+' := cornerMarks_corners hs
  have c1 := h.charAt_renderGrid (y := 0) (x := 0) (by norm_num) (by norm_num)
  have c2 := h.charAt_renderGrid (y := 0) (x := 22) (by norm_num) (by norm_num)
  have c3 := h.charAt_renderGrid (y := 10) (x := 0) (by norm_num) (by norm_num)
  have c4 := h.charAt_renderGrid (y := 10) (x := 22) (by norm_num) (by norm_num)
  rw [hc.1] at c1
  rw [hc.2.1] at c2
  rw [hc.2.2.1] at c3
  rw [hc.2.2.2] at c4
  exact ⟨hc, ⟨c1, c2, c3, c4⟩, ⟨c1, c2, c3, c4⟩⟩

/-- C4: for every seed `generateSigil(seed)` is made of exactly 11 rows of
exactly 23 characters, none of them a newline, separated by single newline
characters, with no trailing newline: its length is `11 * 23 + 10 = 263` and
its newlines are exactly at the positions `23, 47, ..., 239`. -/
theorem generateSigil_shape (seed : Nat) :
    (generateSigil seed).length = 11 * 23 + 10 ∧
    (∀ i, i < 263 → ((generateSigil seed).data[i]? = some '\n' ↔ i % 24 = 23)) ∧
    ∃ rows : List (List Char),
      rows.length = 11 ∧ (∀ r ∈ rows, r.length = 23 ∧ '\n' ∉ r) ∧
      (generateSigil seed).data = joinLines rows := by
  have h := generateSigilGrid_inv seed
  refine ⟨h.length_renderGrid, h.newline_iff, (generateSigilGrid seed).map joinRow, ?_, ?_, rfl⟩
  · rw [List.length_map]; exact h.shape.1
  · intro r hr
    refine ⟨h.lines_length r hr, ?_⟩
    obtain ⟨row, hrow, rfl⟩ := List.mem_map.mp hr
    intro hn
    have hm : some '\n' ∈ (joinRow row).map some := List.mem_map_of_mem _ hn
    rw [h.rows_all_defined row hrow] at hm
    exact newline_not_mem_allowedCells (h.cell_mem row hrow _ hm)

/-! ## Determinism: the generator of one call is private to it -/

theorem foldl_related {α β γ : Type} (R : β → γ → Prop) (f : β → α → β) (g : γ → α → γ)
    (l : List α) (h : ∀ b c a, R b c → R (f b a) (g c a)) (b : β) (c : γ) (hbc : R b c) :
    R (l.foldl f b) (l.foldl g c) := by
  induction l generalizing b c with
  | nil => exact hbc
  | cons a l ih =>
    simp only [List.foldl_cons]
    exact ih _ _ (h b c a hbc)

theorem fillCell_related {σ τ : Type} (rng₁ : σ → ℚ × σ) (rng₂ : τ → ℚ × τ)
    (R : σ → τ → Prop)
    (hR : ∀ a b, R a b → (rng₁ a).1 = (rng₂ b).1 ∧ R (rng₁ a).2 (rng₂ b).2)
    (y x : Nat) (st₁ : σ × Grid) (st₂ : τ × Grid) (h : R st₁.1 st₂.1 ∧ st₁.2 = st₂.2) :
    R (fillCell rng₁ y st₁ x).1 (fillCell rng₂ y st₂ x).1 ∧
      (fillCell rng₁ y st₁ x).2 = (fillCell rng₂ y st₂ x).2 := by
  obtain ⟨e1, r1⟩ := hR _ _ h.1
  obtain ⟨e2, r2⟩ := hR _ _ r1
  by_cases hc : (rng₂ st₂.1).1 < fillChance y x
  · have hc' : (rng₁ st₁.1).1 < fillChance y x := by rw [e1]; exact hc
    simp only [fillCell, if_pos hc, if_pos hc', e2, h.2]
    exact ⟨r2, trivial⟩
  · have hc' : ¬ (rng₁ st₁.1).1 < fillChance y x := by rw [e1]; exact hc
    simp only [fillCell, if_neg hc, if_neg hc', h.2]
    exact ⟨r1, trivial⟩

theorem spineCell_related {σ τ : Type} (rng₁ : σ → ℚ × σ) (rng₂ : τ → ℚ × τ)
    (R : σ → τ → Prop)
    (hR : ∀ a b, R a b → (rng₁ a).1 = (rng₂ b).1 ∧ R (rng₁ a).2 (rng₂ b).2)
    (y : Nat) (st₁ : σ × Grid) (st₂ : τ × Grid) (h : R st₁.1 st₂.1 ∧ st₁.2 = st₂.2) :
    R (spineCell rng₁ st₁ y).1 (spineCell rng₂ st₂ y).1 ∧
      (spineCell rng₁ st₁ y).2 = (spineCell rng₂ st₂ y).2 := by
  obtain ⟨e1, r1⟩ := hR _ _ h.1
  obtain ⟨e2, r2⟩ := hR _ _ r1
  by_cases hc : (rng₂ st₂.1).1 < 0.55
  · have hc' : (rng₁ st₁.1).1 < 0.55 := by rw [e1]; exact hc
    simp only [spineCell, if_pos hc, if_pos hc', e2, h.2]
    exact ⟨r2, trivial⟩
  · have hc' : ¬ (rng₁ st₁.1).1 < 0.55 := by rw [e1]; exact hc
    simp only [spineCell, if_neg hc, if_neg hc']
    exact ⟨r1, h.2⟩

/-- Two generators that stay related and return the same draws build the same
grid and end in related states. -/
theorem sigilGrid_related {σ τ : Type} (rng₁ : σ → ℚ × σ) (rng₂ : τ → ℚ × τ)
    (R : σ → τ → Prop)
    (hR : ∀ a b, R a b → (rng₁ a).1 = (rng₂ b).1 ∧ R (rng₁ a).2 (rng₂ b).2)
    (s : σ) (t : τ) (h : R s t) :
    R (sigilGrid rng₁ s).1 (sigilGrid rng₂ t).1 ∧ (sigilGrid rng₁ s).2 = (sigilGrid rng₂ t).2 := by
  have hfill : R (fillGrid rng₁ (s, blankGrid)).1 (fillGrid rng₂ (t, blankGrid)).1 ∧
      (fillGrid rng₁ (s, blankGrid)).2 = (fillGrid rng₂ (t, blankGrid)).2 := by
    unfold fillGrid
    apply foldl_related (fun (a : σ × Grid) (b : τ × Grid) => R a.1 b.1 ∧ a.2 = b.2)
    · intro b c y hbc
      unfold fillRow
      apply foldl_related (fun (a : σ × Grid) (b : τ × Grid) => R a.1 b.1 ∧ a.2 = b.2)
      · intro b' c' x hbc'
        exact fillCell_related rng₁ rng₂ R hR y x b' c' hbc'
      · exact hbc
    · exact ⟨h, rfl⟩
  have hspine : R (spinePass rng₁ (fillGrid rng₁ (s, blankGrid))).1
        (spinePass rng₂ (fillGrid rng₂ (t, blankGrid))).1 ∧
      (spinePass rng₁ (fillGrid rng₁ (s, blankGrid))).2 =
        (spinePass rng₂ (fillGrid rng₂ (t, blankGrid))).2 := by
    unfold spinePass
    apply foldl_related (fun (a : σ × Grid) (b : τ × Grid) => R a.1 b.1 ∧ a.2 = b.2)
    · intro b c y hbc
      exact spineCell_related rng₁ rng₂ R hR y b c hbc
    · exact hfill
  simp only [sigilGrid]
  exact ⟨hspine.1, by rw [hspine.2]⟩

/-- A call of the closure at `ref` returns what the closure on its own returns,
and changes no other counter. -/
theorem Heap.call_related (ref : Nat) (keep : List Nat) (heap : Heap) (g : Rng)
    (h : Heap.Owns ref keep heap g) :
    (Heap.call ref heap).1 = g.next.1 ∧ Heap.Owns ref keep (Heap.call ref heap).2 g.next.2 := by
  obtain ⟨h1, h2⟩ := h
  have hlt : ref < heap.cells.length := by
    rcases List.getElem?_eq_some.mp h1 with ⟨hl, _⟩
    exact hl
  have hg : (⟨heap.cells.getD ref 0⟩ : Rng) = g := by
    rw [List.getD_eq_getElem?_getD, h1]
    rfl
  simp only [Heap.call, hg]
  refine ⟨trivial, ?_, ?_⟩
  · show (heap.cells.set ref g.next.2.t)[ref]? = some g.next.2.t
    rw [List.getElem?_set, if_pos rfl, if_pos hlt]
  · intro r hr
    show (heap.cells.set ref g.next.2.t)[r]? = keep[r]?
    rw [List.getElem?_set, if_neg (by omega)]
    exact h2 r hr

theorem Heap.mulberry32_owns (seed : Nat) (heap : Heap) :
    Heap.Owns (Heap.mulberry32 seed heap).1 heap.cells (Heap.mulberry32 seed heap).2
      (Sigilry.mulberry32 seed) := by
  refine ⟨?_, ?_⟩
  · show (heap.cells ++ [seed % 4294967296])[heap.cells.length]? = some (seed % 4294967296)
    rw [List.getElem?_append_right (le_refl _), Nat.sub_self]
    rfl
  · intro r hr
    show (heap.cells ++ [seed % 4294967296])[r]? = heap.cells[r]?
    rw [List.getElem?_append_left hr]

theorem Heap.pair_facts {n : Nat} {keep : List Nat} {out : String × Heap} {a : Heap × Grid}
    {b : Rng × Grid} (e : out = (renderGrid a.2, a.1)) (hab : a.2 = b.2)
    (hk : Heap.Owns n keep a.1 b.1) :
    out.1 = renderGrid b.2 ∧ ∀ r, r < n → out.2.cells[r]? = keep[r]? := by
  subst e
  exact ⟨congrArg renderGrid hab, hk.2⟩

/-- In every store `generateSigil(seed)` returns the string of the function on
its own, and leaves the counters of all earlier closures as they were. -/
theorem Heap.generateSigil_spec (seed : Nat) (heap : Heap) :
    (Heap.generateSigil seed heap).1 = Sigilry.generateSigil seed ∧
      ∀ r, r < heap.cells.length →
        (Heap.generateSigil seed heap).2.cells[r]? = heap.cells[r]? := by
  have key := sigilGrid_related (Heap.call (Heap.mulberry32 seed heap).1) Rng.next
    (Heap.Owns (Heap.mulberry32 seed heap).1 heap.cells)
    (Heap.call_related (Heap.mulberry32 seed heap).1 heap.cells)
    (Heap.mulberry32 seed heap).2 (Sigilry.mulberry32 seed) (Heap.mulberry32_owns seed heap)
  have e1 : Heap.generateSigil seed heap =
      (renderGrid (sigilGrid (Heap.call (Heap.mulberry32 seed heap).1)
          (Heap.mulberry32 seed heap).2).2,
        (sigilGrid (Heap.call (Heap.mulberry32 seed heap).1) (Heap.mulberry32 seed heap).2).1) :=
    rfl
  exact Heap.pair_facts e1 key.2 key.1

/-- C3: for every seed `s`, `generateSigil(s)` returns the same string in every
store of generator closures: the string of the function on its own. So two
calls in a row return the identical string, and the result does not depend on
earlier calls or on draws made from any other generator; the call in turn
leaves every other generator's counter unchanged. -/
theorem generateSigil_deterministic (seed : Nat) (heap₁ heap₂ : Heap) :
    (Heap.generateSigil seed heap₁).1 = generateSigil seed ∧
    (Heap.generateSigil seed heap₁).1 = (Heap.generateSigil seed heap₂).1 ∧
    (Heap.generateSigil seed (Heap.generateSigil seed heap₁).2).1 =
      (Heap.generateSigil seed heap₁).1 ∧
    (∀ ref, (Heap.generateSigil seed (Heap.call ref heap₁).2).1 =
      (Heap.generateSigil seed heap₁).1) ∧
    (∀ ref, ref < heap₁.cells.length →
      (Heap.generateSigil seed heap₁).2.cells[ref]? = heap₁.cells[ref]?) := by
  refine ⟨(Heap.generateSigil_spec seed heap₁).1, ?_, ?_, ?_, (Heap.generateSigil_spec seed heap₁).2⟩
  · rw [(Heap.generateSigil_spec seed heap₁).1, (Heap.generateSigil_spec seed heap₂).1]
  · rw [(Heap.generateSigil_spec seed _).1, (Heap.generateSigil_spec seed heap₁).1]
  · intro ref
    rw [(Heap.generateSigil_spec seed _).1, (Heap.generateSigil_spec seed heap₁).1]

/-! ## Rounding to doubles -/

/-- Rounding to the nearest integer, ties to even: when the result is at most
`n`. -/
theorem roundHalfEven_le_iff (y : ℚ) (n : Int) :
    roundHalfEven y ≤ n ↔ y < n + 1 / 2 ∨ (y = n + 1 / 2 ∧ n % 2 = 0) := by
  have h1 : (⌊y⌋ : ℚ) ≤ y := Int.floor_le y
  have h2 : y < ⌊y⌋ + 1 := Int.lt_floor_add_one y
  unfold roundHalfEven
  split_ifs with a b c
  · constructor
    · intro h
      left
      have : (⌊y⌋ : ℚ) ≤ n := by exact_mod_cast h
      linarith
    · rintro (h | ⟨h, _⟩)
      · have : (⌊y⌋ : ℚ) < n + 1 := by linarith
        have : ⌊y⌋ < n + 1 := by exact_mod_cast this
        omega
      · have : (⌊y⌋ : ℚ) < n + 1 := by linarith
        have : ⌊y⌋ < n + 1 := by exact_mod_cast this
        omega
  · constructor
    · intro h
      left
      have : ((⌊y⌋ + 1 : Int) : ℚ) ≤ n := by exact_mod_cast h
      push_cast at this
      linarith
    · rintro (h | ⟨h, _⟩)
      · have : (⌊y⌋ : ℚ) < n := by linarith
        have : ⌊y⌋ < n := by exact_mod_cast this
        omega
      · have : (⌊y⌋ : ℚ) < n := by linarith
        have : ⌊y⌋ < n := by exact_mod_cast this
        omega
  · have hy : y = ⌊y⌋ + 1 / 2 := by
      have := not_lt.mp a
      have := not_lt.mp b
      linarith
    constructor
    · intro h
      rcases lt_or_eq_of_le h with h | h
      · left
        have : (⌊y⌋ : ℚ) + 1 ≤ n := by exact_mod_cast h
        linarith
      · right
        rw [← h]
        exact ⟨hy, c⟩
    · rintro (h | ⟨h, _⟩)
      · have : (⌊y⌋ : ℚ) < n := by linarith
        have : ⌊y⌋ < n := by exact_mod_cast this
        omega
      · have : (⌊y⌋ : ℚ) = n := by linarith
        have : ⌊y⌋ = n := by exact_mod_cast this
        omega
  · have hy : y = ⌊y⌋ + 1 / 2 := by
      have := not_lt.mp a
      have := not_lt.mp b
      linarith
    constructor
    · intro h
      left
      have : ((⌊y⌋ + 1 : Int) : ℚ) ≤ n := by exact_mod_cast h
      push_cast at this
      linarith
    · rintro (h | ⟨h, hn⟩)
      · have : (⌊y⌋ : ℚ) < n := by linarith
        have : ⌊y⌋ < n := by exact_mod_cast this
        omega
      · have : (⌊y⌋ : ℚ) = n := by linarith
        have : ⌊y⌋ = n := by exact_mod_cast this
        omega

theorem roundHalfEven_intCast (n : Int) : roundHalfEven (n : ℚ) = n := by
  unfold roundHalfEven
  rw [Int.floor_intCast, sub_self, mul_zero, if_pos zero_lt_one]

theorem roundHalfEven_le_of_le {y : ℚ} {n : Int} (h : y ≤ n) : roundHalfEven y ≤ n :=
  (roundHalfEven_le_iff y n).mpr (Or.inl (by linarith))

theorem le_roundHalfEven_of_le {y : ℚ} {n : Int} (h : (n : ℚ) ≤ y) : n ≤ roundHalfEven y := by
  by_contra hc
  have h1 : roundHalfEven y ≤ n - 1 := by omega
  rcases (roundHalfEven_le_iff y (n - 1)).mp h1 with h2 | ⟨h2, _⟩
  · push_cast at h2; linarith
  · push_cast at h2; linarith

theorem two_zpow_pos (e : Int) : (0 : ℚ) < 2 ^ e := zpow_pos (by norm_num) e

/-- The exponent of the binade of a positive number. -/
theorem log_two_eq {x : ℚ} {k : Int} (h1 : (2 : ℚ) ^ k ≤ x) (h2 : x < 2 ^ (k + 1)) :
    Int.log 2 x = k := by
  have hx : 0 < x := lt_of_lt_of_le (two_zpow_pos k) h1
  have a : k ≤ Int.log 2 x := (Int.zpow_le_iff_le_log (by norm_num) hx).mp (by exact_mod_cast h1)
  have b : Int.log 2 x < k + 1 :=
    (Int.lt_zpow_iff_log_lt (by norm_num) hx).mp (by exact_mod_cast h2)
  omega

/-- Rounding inside a binade of normal doubles. -/
theorem fl_of_binade {x : ℚ} {k : Int} (hk : -1022 ≤ k) (h1 : (2 : ℚ) ^ k ≤ x)
    (h2 : x < 2 ^ (k + 1)) :
    fl x = (roundHalfEven (x / 2 ^ (k - 52)) : ℚ) * 2 ^ (k - 52) := by
  have hx : 0 < x := lt_of_lt_of_le (two_zpow_pos k) h1
  have he : ulpExp x = k - 52 := by
    rw [ulpExp, abs_of_pos hx, log_two_eq h1 h2]
    exact max_eq_left (by omega)
  rw [fl, if_neg (not_lt.mpr hx.le), he]


theorem two_zpow_eq_intCast {n : Int} (hn : 0 ≤ n) :
    (2 : ℚ) ^ n = ((2 ^ n.toNat : Int) : ℚ) := by
  conv_lhs => rw [← Int.toNat_of_nonneg hn]
  rw [zpow_natCast]
  push_cast
  rfl

theorem two_zpow_sub_mul (a b : Int) : (2 : ℚ) ^ (a - b) * 2 ^ b = 2 ^ a := by
  rw [← zpow_add₀ (by norm_num : (2 : ℚ) ≠ 0)]
  congr 1
  omega

theorem fl_zero : fl 0 = 0 := by
  simp [fl, roundHalfEven]

theorem fl_nonpos_of_neg {x : ℚ} (hx : x < 0) : fl x ≤ 0 := by
  rw [fl, if_pos hx]
  have h : (0 : Int) ≤ roundHalfEven (-x / 2 ^ ulpExp x) :=
    le_roundHalfEven_of_le (by
      push_cast
      exact div_nonneg (by linarith) (two_zpow_pos _).le)
  have h1 : (0 : ℚ) ≤ (roundHalfEven (-x / 2 ^ ulpExp x) : ℚ) := by exact_mod_cast h
  have := mul_nonneg h1 (two_zpow_pos (ulpExp x)).le
  linarith

/-- Rounding never crosses a power of two from below. -/
theorem fl_le_two_zpow {x : ℚ} {k : Int} (hk : -1074 ≤ k) (h0 : 0 ≤ x) (h : x ≤ 2 ^ k) :
    fl x ≤ 2 ^ k := by
  rcases eq_or_lt_of_le h0 with h0 | hx
  · rw [← h0, fl_zero]
    exact (two_zpow_pos k).le
  have hlog : Int.log 2 x < k + 1 :=
    (Int.lt_zpow_iff_log_lt (by norm_num) hx).mp (by
      push_cast
      exact lt_of_le_of_lt h (zpow_lt_zpow_right₀ (by norm_num) (by omega)))
  have he : ulpExp x ≤ k := by
    rw [ulpExp, abs_of_pos hx]
    exact max_le (by omega) hk
  rw [fl, if_neg (not_lt.mpr h0)]
  have hr : roundHalfEven (x / 2 ^ ulpExp x) ≤ 2 ^ (k - ulpExp x).toNat :=
    roundHalfEven_le_of_le (by
      rw [← two_zpow_eq_intCast (by omega), div_le_iff₀ (two_zpow_pos _), two_zpow_sub_mul]
      exact h)
  have hr1 : (roundHalfEven (x / 2 ^ ulpExp x) : ℚ) ≤ 2 ^ (k - ulpExp x) := by
    rw [two_zpow_eq_intCast (by omega : 0 ≤ k - ulpExp x)]
    exact_mod_cast hr
  calc (roundHalfEven (x / 2 ^ ulpExp x) : ℚ) * 2 ^ ulpExp x
      ≤ 2 ^ (k - ulpExp x) * 2 ^ ulpExp x :=
        mul_le_mul_of_nonneg_right hr1 (two_zpow_pos _).le
    _ = 2 ^ k := two_zpow_sub_mul _ _

/-- Rounding never crosses a power of two from above. -/
theorem two_zpow_le_fl {x : ℚ} {k : Int} (hk : -1074 ≤ k) (h : 2 ^ k ≤ x) :
    2 ^ k ≤ fl x := by
  have hx : 0 < x := lt_of_lt_of_le (two_zpow_pos k) h
  have hlog : k ≤ Int.log 2 x :=
    (Int.zpow_le_iff_le_log (by norm_num) hx).mp (by exact_mod_cast h)
  have hself : (2 : ℚ) ^ Int.log 2 x ≤ x := by
    have := Int.zpow_log_le_self (by norm_num : 1 < 2) hx
    exact_mod_cast this
  have he : ulpExp x ≤ Int.log 2 x := by
    rw [ulpExp, abs_of_pos hx]
    exact max_le (by omega) (by omega)
  rw [fl, if_neg (not_lt.mpr hx.le)]
  have hr : 2 ^ (Int.log 2 x - ulpExp x).toNat ≤ roundHalfEven (x / 2 ^ ulpExp x) :=
    le_roundHalfEven_of_le (by
      rw [← two_zpow_eq_intCast (by omega), le_div_iff₀ (two_zpow_pos _), two_zpow_sub_mul]
      exact hself)
  have hr1 : (2 : ℚ) ^ (Int.log 2 x - ulpExp x) ≤ (roundHalfEven (x / 2 ^ ulpExp x) : ℚ) := by
    rw [two_zpow_eq_intCast (by omega : 0 ≤ Int.log 2 x - ulpExp x)]
    exact_mod_cast hr
  calc (2 : ℚ) ^ k ≤ 2 ^ Int.log 2 x := zpow_le_zpow_right₀ (by norm_num) hlog
    _ = 2 ^ (Int.log 2 x - ulpExp x) * 2 ^ ulpExp x := (two_zpow_sub_mul _ _).symm
    _ ≤ (roundHalfEven (x / 2 ^ ulpExp x) : ℚ) * 2 ^ ulpExp x :=
        mul_le_mul_of_nonneg_right hr1 (two_zpow_pos _).le

/-- The doubles below the double nearest to `1000 / 12` are the roundings of
the rationals up to the midpoint under it (the midpoint is a tie and the
significand of the double is odd, so the tie rounds down). -/
theorem fl_lt_budget_iff (x : ℚ) :
    fl x < 5864062014805333 / 2 ^ 46 ↔ x ≤ 11728124029610665 / 2 ^ 47 := by
  rcases lt_or_le x 0 with hneg | h0
  · have := fl_nonpos_of_neg hneg
    constructor
    · intro _
      exact le_trans hneg.le (by norm_num)
    · intro _
      exact lt_of_le_of_lt this (by norm_num)
  rcases lt_or_le x 64 with h64 | h64
  · have := fl_le_two_zpow (k := 6) (by norm_num) h0 (by norm_num; exact h64.le)
    constructor
    · intro _
      exact le_trans h64.le (by norm_num)
    · intro _
      exact lt_of_le_of_lt this (by norm_num)
  rcases lt_or_le x 128 with h128 | h128
  · rw [fl_of_binade (k := 6) (by norm_num) (by norm_num; exact h64) (by norm_num; exact h128)]
    have e : ((6 : Int) - 52) = -46 := by norm_num
    rw [e]
    have p : (2 : ℚ) ^ (-46 : Int) = 1 / 2 ^ 46 := by norm_num
    rw [p]
    have key := roundHalfEven_le_iff (x / (1 / 2 ^ 46)) 5864062014805332
    constructor
    · intro h
      have h1 : (roundHalfEven (x / (1 / 2 ^ 46)) : ℚ) < 5864062014805333 := by
        rw [mul_one_div, div_lt_div_iff_of_pos_right (by norm_num)] at h
        exact h
      have h2 : roundHalfEven (x / (1 / 2 ^ 46)) < 5864062014805333 := by exact_mod_cast h1
      rcases key.mp (by omega) with h3 | ⟨h3, _⟩
      · rw [div_lt_iff₀ (by norm_num)] at h3
        push_cast at h3
        linarith
      · rw [div_eq_iff (by norm_num)] at h3
        push_cast at h3
        linarith
    · intro h
      have h2 : roundHalfEven (x / (1 / 2 ^ 46)) ≤ 5864062014805332 := by
        apply key.mpr
        rcases lt_or_eq_of_le h with h | h
        · left
          rw [div_lt_iff₀ (by norm_num)]
          push_cast
          linarith
        · right
          refine ⟨?_, by norm_num⟩
          rw [div_eq_iff (by norm_num), h]
          norm_num
      have h1 : (roundHalfEven (x / (1 / 2 ^ 46)) : ℚ) ≤ 5864062014805332 := by exact_mod_cast h2
      rw [mul_one_div, div_lt_div_iff_of_pos_right (by norm_num)]
      linarith
  · have := two_zpow_le_fl (k := 7) (by norm_num) (by norm_num; exact h128)
    constructor
    · intro h
      exfalso
      have : (128 : ℚ) ≤ fl x := by norm_num at this; exact this
      have hh : (5864062014805333 : ℚ) / 2 ^ 46 < 128 := by norm_num
      linarith
    · intro h
      exfalso
      have hh : (11728124029610665 : ℚ) / 2 ^ 47 < 128 := by norm_num
      linarith


theorem roundHalfEven_eq_of_near {y : ℚ} {n : Int} (h1 : (n : ℚ) - 1 / 2 < y)
    (h2 : y < n + 1 / 2) : roundHalfEven y = n := by
  apply le_antisymm
  · exact (roundHalfEven_le_iff y n).mpr (Or.inl h2)
  · by_contra hc
    have h3 : roundHalfEven y ≤ n - 1 := by omega
    rcases (roundHalfEven_le_iff y (n - 1)).mp h3 with h4 | ⟨h4, _⟩
    · push_cast at h4; linarith
    · push_cast at h4; linarith

/-- A tie above an odd integer rounds up, to the even neighbour. -/
theorem roundHalfEven_tie_odd {y : ℚ} {n : Int} (h : y = n + 1 / 2) (hn : n % 2 = 1) :
    roundHalfEven y = n + 1 := by
  apply le_antisymm
  · exact (roundHalfEven_le_iff y (n + 1)).mpr (Or.inl (by push_cast; linarith))
  · by_contra hc
    have h3 : roundHalfEven y ≤ n := by omega
    rcases (roundHalfEven_le_iff y n).mp h3 with h4 | ⟨_, h4⟩
    · linarith
    · omega

/-- A multiple of the spacing of its binade is a double. -/
theorem fl_of_multiple {x : ℚ} {k : Int} (m : Int) (hk : -1022 ≤ k) (h1 : (2 : ℚ) ^ k ≤ x)
    (h2 : x < 2 ^ (k + 1)) (hm : x = m * 2 ^ (k - 52)) : fl x = x := by
  rw [fl_of_binade hk h1 h2]
  have : x / 2 ^ (k - 52) = m := by
    rw [div_eq_iff (two_zpow_pos _).ne.symm]
    exact hm
  rw [this, roundHalfEven_intCast]
  exact hm.symm

/-- The frame budget of the code: the double nearest to `1000 / 12`. -/
theorem frameBudget_eq : frameBudget = 5864062014805333 / 2 ^ 46 := by
  rw [frameBudget,
    fl_of_binade (k := 6) (by norm_num) (by norm_num) (by norm_num)]
  have e : ((6 : Int) - 52) = -46 := by norm_num
  have p : (2 : ℚ) ^ (-46 : Int) = 1 / 2 ^ 46 := by norm_num
  rw [e, p, roundHalfEven_eq_of_near (n := 5864062014805333) (by norm_num) (by norm_num)]
  norm_num

theorem frameBudget_lt : frameBudget < 1000 / 12 := by
  rw [frameBudget_eq]
  norm_num

/-- The throttle test of `frame` on exact numbers. -/
theorem fl_lt_frameBudget_iff (x : ℚ) :
    fl x < frameBudget ↔ x ≤ 11728124029610665 / 2 ^ 47 := by
  rw [frameBudget_eq]
  exact fl_lt_budget_iff x

/-- Doubles from 64 on are multiples of `2 ^ (-46)`. -/
theorem double_lattice {x : ℚ} (hx : fl x = x) (h64 : 64 ≤ x) :
    ∃ m : Int, x = m / 2 ^ 46 := by
  have hpos : 0 < x := by linarith
  have hlog : 6 ≤ Int.log 2 x :=
    (Int.zpow_le_iff_le_log (by norm_num) hpos).mp (by norm_num; exact h64)
  have he : ulpExp x = Int.log 2 x - 52 := by
    rw [ulpExp, abs_of_pos hpos]
    exact max_eq_left (by omega)
  rw [fl, if_neg (not_lt.mpr hpos.le), he] at hx
  refine ⟨roundHalfEven (x / 2 ^ (Int.log 2 x - 52)) * 2 ^ (Int.log 2 x - 52 + 46).toNat, ?_⟩
  have hz : (2 : ℚ) ^ (Int.log 2 x - 52) = 2 ^ (Int.log 2 x - 52 + 46) / 2 ^ 46 := by
    rw [zpow_add₀ (by norm_num : (2 : ℚ) ≠ 0)]
    norm_num
  rw [two_zpow_eq_intCast (by omega : 0 ≤ Int.log 2 x - 52 + 46)] at hz
  conv_lhs => rw [← hx]
  rw [hz]
  push_cast
  ring

theorem fl_budget : fl (5864062014805333 / 2 ^ 46) = 5864062014805333 / 2 ^ 46 :=
  fl_of_multiple (k := 6) 5864062014805333 (by norm_num) (by norm_num) (by norm_num)
    (by norm_num)

theorem fl_two_budgets :
    fl (2 * (5864062014805333 / 2 ^ 46)) = 2 * (5864062014805333 / 2 ^ 46) :=
  fl_of_multiple (k := 7) 5864062014805333 (by norm_num) (by norm_num) (by norm_num)
    (by norm_num)

theorem fl_1280 : fl 1280 = 1280 :=
  fl_of_multiple (k := 10) (1280 * 2 ^ 42) (by norm_num) (by norm_num) (by norm_num)
    (by norm_num)

/-- A tie: the exact product is half a spacing below 1000 and the significand
under it is odd, so it rounds up to 1000. -/
theorem fl_tie_example : fl (5864062014805333 / 2 ^ 44 * 3) = 1000 := by
  rw [fl_of_binade (k := 9) (by norm_num) (by norm_num) (by norm_num)]
  have e : ((9 : Int) - 52) = -43 := by norm_num
  have p : (2 : ℚ) ^ (-43 : Int) = 1 / 2 ^ 43 := by norm_num
  rw [e, p, roundHalfEven_tie_odd (n := 1000 * 2 ^ 43 - 1) (by norm_num) (by norm_num)]
  norm_num

/-! ## The animation scheduler -/

theorem requestFrame_frameLogInv {s : Sched} (h : FrameLogInv s) :
    FrameLogInv (requestFrame s) := h

/-- A frame callback with a double for a timestamp keeps the draws of `frame`
at least the frame budget apart: the test `ts - last < 1000 / 12` fails only
when the exact difference is above the midpoint under the budget, and a
difference of two multiples of `2 ^ (-46)` above that midpoint is at least the
budget. -/
theorem frame_frameLogInv (ts : ℚ) (hts : fl ts = ts) {s : Sched} (h : FrameLogInv s) :
    FrameLogInv (frame ts s) := by
  unfold frame
  split_ifs with h1 h2
  · exact h
  · exact h
  · obtain ⟨hp, hle, h0, m, hm⟩ := h
    have hgap : 11728124029610665 / 2 ^ 47 < ts - s.last :=
      not_le.mp (fun hc => h2 ((fl_lt_frameBudget_iff _).mpr hc))
    have h64 : (64 : ℚ) ≤ ts := by
      have : (64 : ℚ) < 11728124029610665 / 2 ^ 47 := by norm_num
      linarith
    obtain ⟨n, hn⟩ := double_lattice hts h64
    have hb : s.last + frameBudget ≤ ts := by
      rw [frameBudget_eq, hn, hm]
      rw [hn, hm] at hgap
      have h3 : (11728124029610665 : ℚ) < 2 * ((n : ℚ) - m) := by
        have h4 : (11728124029610665 : ℚ) / 2 ^ 47 < ((n : ℚ) - m) / 2 ^ 46 := by
          rw [sub_div]
          exact hgap
        rw [div_lt_div_iff₀ (by norm_num) (by norm_num)] at h4
        linarith
      have h5 : (11728124029610665 : Int) < 2 * (n - m) := by exact_mod_cast h3
      have h6 : (5864062014805333 : Int) ≤ n - m := by omega
      have h7 : (5864062014805333 : ℚ) ≤ (n : ℚ) - m := by exact_mod_cast h6
      rw [← add_div, div_le_div_iff_of_pos_right (by norm_num)]
      linarith
    refine ⟨?_, ?_, ?_, ?_⟩
    · show (ts :: s.frameDraws).Pairwise (fun later earlier => earlier + frameBudget ≤ later)
      rw [List.pairwise_cons]
      exact ⟨fun d hd => by have := hle d hd; linarith, hp⟩
    · show ∀ d ∈ ts :: s.frameDraws, d ≤ ts
      intro d hd
      rcases List.mem_cons.mp hd with rfl | hd
      · exact le_refl _
      · have := hle d hd
        have : (0 : ℚ) < frameBudget := by rw [frameBudget_eq]; norm_num
        linarith
    · show (0 : ℚ) ≤ ts
      linarith
    · exact ⟨n, hn⟩

theorem iterate_invariant {α : Type} (P : α → Prop) (f : α → α) (hf : ∀ a, P a → P (f a))
    (n : Nat) (a : α) (ha : P a) : P (f^[n] a) := by
  induction n generalizing a with
  | zero => exact ha
  | succ k ih => rw [Function.iterate_succ_apply]; exact ih _ (hf a ha)

theorem tick_frameLogInv (ts : ℚ) (hts : fl ts = ts) {s : Sched} (h : FrameLogInv s) :
    FrameLogInv (tick ts s) :=
  iterate_invariant FrameLogInv (frame ts) (fun _ ha => frame_frameLogInv ts hts ha) _ _ h

theorem step_frameLogInv {s : Sched} (h : FrameLogInv s) (e : Event)
    (he : ∀ ts : ℚ, e = Event.tick ts → fl ts = ts) :
    FrameLogInv (step s e) := by
  cases e with
  | tick ts => exact tick_frameLogInv ts (he ts rfl) h
  | pauseClick =>
    simp only [step, onPauseClick]
    split_ifs <;> exact h
  | intersection entries =>
    simp only [step, onIntersection]
    split_ifs <;> exact h
  | resize width height ratio =>
    simp only [step, onResize]
    split_ifs <;> exact h

theorem start_frameLogInv (prefersReduced : Bool) (width height ratio : ℚ) :
    FrameLogInv (start prefersReduced width height ratio) := by
  have h0 : ∀ s : Sched, s.frameDraws = [] → s.last = 0 → FrameLogInv s := by
    intro s hs hl
    refine ⟨by simp [hs], by simp [hs], by rw [hl], 0, by rw [hl]; norm_num⟩
  apply h0
  · simp only [start]
    split_ifs <;> rfl
  · simp only [start]
    split_ifs <;> rfl

theorem run_frameLogInv (events : List Event)
    (hts : ∀ ts : ℚ, Event.tick ts ∈ events → fl ts = ts) {s : Sched} (h : FrameLogInv s) :
    FrameLogInv (run events s) :=
  foldl_invariant FrameLogInv step events
    (fun _ e hmem hb => step_frameLogInv hb e (fun ts hte => hts ts (hte ▸ hmem))) s h

/-- Timestamps spaced by `b`, newest first and none before `a`: the newest is
at least `length - 1` times `b` after `a`. -/
theorem spaced_head_bound (a b : ℚ) (l : List ℚ) (x : ℚ)
    (hp : (x :: l).Pairwise (fun later earlier => earlier + b ≤ later))
    (ha : ∀ d ∈ x :: l, a ≤ d) : a + (l.length : ℚ) * b ≤ x := by
  induction l generalizing x with
  | nil => simpa using ha x (List.mem_cons_self _ _)
  | cons y rest ih =>
    rw [List.pairwise_cons] at hp
    have h1 := ih y hp.2 (fun d hd => ha d (List.mem_cons_of_mem _ hd))
    have h2 := hp.1 y (List.mem_cons_self _ _)
    simp only [List.length_cons]
    push_cast
    linarith

theorem spaced_window_count (a b : ℚ) (hb : 1000 < 13 * b) (l : List ℚ)
    (hp : l.Pairwise (fun later earlier => earlier + b ≤ later))
    (ha : ∀ d ∈ l, a ≤ d ∧ d ≤ a + 1000) : l.length ≤ 13 := by
  cases l with
  | nil => simp
  | cons x rest =>
    have h1 := spaced_head_bound a b rest x hp (fun d hd => (ha d hd).1)
    have h2 := (ha x (List.mem_cons_self _ _)).2
    have h3 : rest.length < 13 := by
      by_contra hc
      have h4 : (13 : ℚ) ≤ (rest.length : ℚ) := by exact_mod_cast not_lt.mp hc
      have h5 : 13 * b ≤ (rest.length : ℚ) * b :=
        mul_le_mul_of_nonneg_right h4 (by linarith)
      linarith
    simp only [List.length_cons]
    omega

/-- An animation frame of a running, visible scheduler with one callback
registered, later than `last` by more than the midpoint under the frame budget:
`frame` draws. -/
theorem tick_of_due (ts : ℚ) {s : Sched} (hr : s.running = true) (hv : s.visible = true)
    (hp : s.pending = 1) (hd : 11728124029610665 / 2 ^ 47 < ts - s.last) :
    tick ts s =
      { s with
        last := ts
        t := fl (s.t + fl 0.15)
        draws := s.draws + 1
        frameDraws := ts :: s.frameDraws
        pending := 1 } := by
  have hb : ¬ (fl (ts - s.last) < frameBudget) := by
    rw [fl_lt_frameBudget_iff]
    exact not_le.mpr hd
  simp [tick, frame, requestFrame, draw, hr, hv, hp, hb]

/-- Two animation frames right after startup, at the doubles
`83.33333333333333` and `166.66666666666666` (once and twice the frame budget
of the code): `frame` draws at both. -/
theorem budget_ticks_draw_twice :
    (run [Event.tick (5864062014805333 / 2 ^ 46), Event.tick (2 * (5864062014805333 / 2 ^ 46))]
      (start false 300 150 1)).frameDraws =
      [2 * (5864062014805333 / 2 ^ 46), 5864062014805333 / 2 ^ 46] := by
  have e : run [Event.tick (5864062014805333 / 2 ^ 46),
        Event.tick (2 * (5864062014805333 / 2 ^ 46))] (start false 300 150 1) =
      tick (2 * (5864062014805333 / 2 ^ 46))
        (tick (5864062014805333 / 2 ^ 46) (start false 300 150 1)) := rfl
  have h0 : (start false 300 150 1).last = 0 := by decide
  have hf : (start false 300 150 1).frameDraws = [] := by decide
  have h1 := tick_of_due (5864062014805333 / 2 ^ 46) (s := start false 300 150 1)
    (by decide) (by decide) (by decide) (by rw [h0]; norm_num)
  rw [e, h1, tick_of_due _ (by decide) (by decide) rfl (by
    show (11728124029610665 : ℚ) / 2 ^ 47 <
      2 * (5864062014805333 / 2 ^ 46) - 5864062014805333 / 2 ^ 46
    norm_num)]
  show [2 * (5864062014805333 / 2 ^ 46), 5864062014805333 / 2 ^ 46] ++
    (start false 300 150 1).frameDraws = _
  rw [hf]
  rfl

theorem budget_ticks_are_doubles :
    ∀ ts : ℚ, Event.tick ts ∈
      [Event.tick (5864062014805333 / 2 ^ 46), Event.tick (2 * (5864062014805333 / 2 ^ 46))] →
      fl ts = ts := by
  intro ts h
  simp only [List.mem_cons, Event.tick.injEq, List.mem_singleton, List.not_mem_nil,
    or_false] at h
  rcases h with rfl | rfl
  · exact fl_budget
  · exact fl_two_budgets

/-- C7 (counterexample): two animation frames right after startup, with the
increasing timestamps `83.33333333333333` and `166.66666666666666` (doubles,
once and twice the frame budget that the code computes for `1000 / 12`).
`frame` draws at both, and the two draws are less than `1000 / 12` ms apart. -/
theorem frame_draws_closer_than_exact_budget :
    fl (5864062014805333 / 2 ^ 46) = 5864062014805333 / 2 ^ 46 ∧
    fl (2 * (5864062014805333 / 2 ^ 46)) = 2 * (5864062014805333 / 2 ^ 46) ∧
    (run [Event.tick (5864062014805333 / 2 ^ 46), Event.tick (2 * (5864062014805333 / 2 ^ 46))]
      (start false 300 150 1)).frameDraws =
      [2 * (5864062014805333 / 2 ^ 46), 5864062014805333 / 2 ^ 46] ∧
    (2 * (5864062014805333 / 2 ^ 46) - 5864062014805333 / 2 ^ 46 : ℚ) < 1000 / 12 ∧
    ¬ (run [Event.tick (5864062014805333 / 2 ^ 46),
          Event.tick (2 * (5864062014805333 / 2 ^ 46))]
        (start false 300 150 1)).frameDraws.Pairwise
        (fun later earlier => earlier + 1000 / 12 ≤ later) := by
  refine ⟨fl_budget, fl_two_budgets, budget_ticks_draw_twice, by norm_num, ?_⟩
  rw [budget_ticks_draw_twice]
  intro h
  have h1 := (List.pairwise_cons.mp h).1 _ (List.mem_singleton_self _)
  norm_num at h1

/-- C7 (amended): in every run of the scheduler from startup (ticks, pause
clicks, visibility reports and resizes in any order, with any number of frame
callbacks pending at once) in which the timestamps of the ticks are doubles, in
any order, any two draws made by `frame` have timestamps at least the frame
budget of the code apart. That budget is the double nearest to `1000 / 12`,
which is `5864062014805333 / 2 ^ 46` and less than `1000 / 12`. Consequently
(in particular with ticks every `1000 / 60` ms) `frame` draws at most 13
times in any window of 1000 ms. -/
theorem frame_draws_throttled_by_double_budget (prefersReduced : Bool)
    (width height ratio : ℚ) (events : List Event)
    (hts : ∀ ts : ℚ, Event.tick ts ∈ events → fl ts = ts) :
    frameBudget = 5864062014805333 / 2 ^ 46 ∧
    frameBudget < 1000 / 12 ∧
    (run events (start prefersReduced width height ratio)).frameDraws.Pairwise
        (fun later earlier => earlier + frameBudget ≤ later) ∧
      ∀ a : ℚ,
        ((run events (start prefersReduced width height ratio)).frameDraws.filter
          (fun d => decide (a ≤ d ∧ d ≤ a + 1000))).length ≤ 13 := by
  have h := run_frameLogInv events hts (start_frameLogInv prefersReduced width height ratio)
  refine ⟨frameBudget_eq, frameBudget_lt, h.1, fun a => ?_⟩
  apply spaced_window_count a frameBudget (by rw [frameBudget_eq]; norm_num)
  · exact h.1.sublist (List.filter_sublist _)
  · intro d hd
    have := (List.mem_filter.mp hd).2
    exact of_decide_eq_true this

/-- Witness of C7: the two animation frames at once and twice the frame budget
of the code; `frame` draws at both, and the draws are that budget apart. -/
theorem frame_draws_throttled_by_double_budget_witness :
    (∀ ts : ℚ, Event.tick ts ∈
      [Event.tick (5864062014805333 / 2 ^ 46), Event.tick (2 * (5864062014805333 / 2 ^ 46))] →
      fl ts = ts) ∧
    (run [Event.tick (5864062014805333 / 2 ^ 46), Event.tick (2 * (5864062014805333 / 2 ^ 46))]
      (start false 300 150 1)).frameDraws.length = 2 ∧
    (run [Event.tick (5864062014805333 / 2 ^ 46), Event.tick (2 * (5864062014805333 / 2 ^ 46))]
      (start false 300 150 1)).frameDraws.Pairwise
        (fun later earlier => earlier + frameBudget ≤ later) :=
  ⟨budget_ticks_are_doubles, by rw [budget_ticks_draw_twice]; rfl,
    (frame_draws_throttled_by_double_budget false 300 150 1 _ budget_ticks_are_doubles).2.2.1⟩

/-- A frame callback in a paused or hidden state changes nothing. -/
theorem frame_of_suspended (ts : ℚ) {s : Sched} (h : s.running = false ∨ s.visible = false) :
    frame ts s = s := by
  unfold frame
  rcases h with h | h <;> simp [h]

/-- An animation frame in a paused or hidden state only empties the list of
registered callbacks. -/
theorem tick_of_suspended (ts : ℚ) {s : Sched} (h : s.running = false ∨ s.visible = false) :
    tick ts s = { s with pending := 0 } := by
  unfold tick
  exact Function.iterate_fixed (frame_of_suspended ts (s := { s with pending := 0 }) h) _

/-- What stays as it is while the scheduler is suspended. -/
theorem step_of_paused {s : Sched} (h : s.running = false) (e : Event)
    (he : e ≠ Event.pauseClick) :
    (step s e).running = false ∧ (step s e).draws = s.draws ∧ (step s e).t = s.t ∧
      (step s e).last = s.last ∧ (step s e).frameDraws = s.frameDraws := by
  cases e with
  | tick ts => rw [step, tick_of_suspended ts (Or.inl h)]; exact ⟨h, rfl, rfl, rfl, rfl⟩
  | pauseClick => exact absurd rfl he
  | intersection entries => simp [step, onIntersection, requestFrame, h]
  | resize width height ratio => simp [step, onResize, resize, draw, h]

theorem step_of_hidden {s : Sched} (h : s.visible = false) (e : Event)
    (he : ∀ entries, e ≠ Event.intersection entries) :
    (step s e).visible = false ∧ (step s e).draws = s.draws ∧ (step s e).t = s.t ∧
      (step s e).last = s.last ∧ (step s e).frameDraws = s.frameDraws := by
  cases e with
  | tick ts => rw [step, tick_of_suspended ts (Or.inr h)]; exact ⟨h, rfl, rfl, rfl, rfl⟩
  | pauseClick =>
    simp only [step, onPauseClick, requestFrame, h]
    split_ifs <;> simp [h]
  | intersection entries => exact absurd rfl (he entries)
  | resize width height ratio => simp [step, onResize, resize, draw, h]

theorem run_of_paused (events : List Event) (he : ∀ e ∈ events, e ≠ Event.pauseClick)
    {s : Sched} (h : s.running = false) :
    (run events s).running = false ∧ (run events s).draws = s.draws ∧ (run events s).t = s.t ∧
      (run events s).last = s.last ∧ (run events s).frameDraws = s.frameDraws := by
  apply foldl_invariant
    (fun s' : Sched => s'.running = false ∧ s'.draws = s.draws ∧ s'.t = s.t ∧
      s'.last = s.last ∧ s'.frameDraws = s.frameDraws) step events _ s ⟨h, rfl, rfl, rfl, rfl⟩
  intro b e hmem hb
  have := step_of_paused hb.1 e (he e hmem)
  exact ⟨this.1, this.2.1.trans hb.2.1, this.2.2.1.trans hb.2.2.1,
    this.2.2.2.1.trans hb.2.2.2.1, this.2.2.2.2.trans hb.2.2.2.2⟩

theorem run_of_hidden (events : List Event)
    (he : ∀ e ∈ events, ∀ entries, e ≠ Event.intersection entries)
    {s : Sched} (h : s.visible = false) :
    (run events s).visible = false ∧ (run events s).draws = s.draws ∧ (run events s).t = s.t ∧
      (run events s).last = s.last ∧ (run events s).frameDraws = s.frameDraws := by
  apply foldl_invariant
    (fun s' : Sched => s'.visible = false ∧ s'.draws = s.draws ∧ s'.t = s.t ∧
      s'.last = s.last ∧ s'.frameDraws = s.frameDraws) step events _ s ⟨h, rfl, rfl, rfl, rfl⟩
  intro b e hmem hb
  have := step_of_hidden hb.1 e (he e hmem)
  exact ⟨this.1, this.2.1.trans hb.2.1, this.2.2.1.trans hb.2.2.1,
    this.2.2.2.1.trans hb.2.2.2.1, this.2.2.2.2.trans hb.2.2.2.2⟩

theorem tickSource_ne_pauseClick (base period : ℚ) (n : Nat) :
    ∀ e ∈ tickSource base period n, e ≠ Event.pauseClick := by
  intro e he
  obtain ⟨k, _, rfl⟩ := List.mem_map.mp he
  exact fun h => Event.noConfusion h

/-- C8: in every scheduler state with `running = false` or `visible = false`,
a frame callback changes nothing, an animation frame performs no draw, leaves
`t` and `last` unchanged and leaves no frame requested, and a resize event
performs no draw, leaves `t` and `last` unchanged and requests no frame. Hence
while `running` is false no events other than a click on the pause button
(any number of ticks, 100 for instance) add a draw, and likewise while
`visible` is false for events other than a report of the observer. -/
theorem suspended_scheduler_does_not_draw (s : Sched)
    (h : s.running = false ∨ s.visible = false) :
    (∀ ts : ℚ, frame ts s = s ∧
      (tick ts s).draws = s.draws ∧ (tick ts s).t = s.t ∧ (tick ts s).last = s.last ∧
      (tick ts s).pending = 0) ∧
    (∀ width height ratio : ℚ,
      (onResize width height ratio s).draws = s.draws ∧
      (onResize width height ratio s).t = s.t ∧
      (onResize width height ratio s).last = s.last ∧
      (onResize width height ratio s).pending = s.pending) ∧
    (s.running = false → ∀ events : List Event, (∀ e ∈ events, e ≠ Event.pauseClick) →
      (run events s).draws = s.draws ∧ (run events s).t = s.t ∧
      (run events s).last = s.last) ∧
    (s.running = false → ∀ base period : ℚ,
      (run (tickSource base period 100) s).draws = s.draws) ∧
    (s.visible = false → ∀ events : List Event,
      (∀ e ∈ events, ∀ entries, e ≠ Event.intersection entries) →
      (run events s).draws = s.draws ∧ (run events s).t = s.t ∧
      (run events s).last = s.last) ∧
    (∀ s0 : Sched, s0.running = true → s0.prefersReduced = false →
      (step s0 Event.pauseClick).running = false ∧
      ∀ (n : Nat) (base period : ℚ),
        (run (tickSource base period n) (step s0 Event.pauseClick)).draws = s0.draws) := by
  refine ⟨?_, ?_, ?_, ?_, ?_, ?_⟩
  · intro ts
    rw [tick_of_suspended ts h]
    exact ⟨frame_of_suspended ts h, rfl, rfl, rfl, rfl⟩
  · intro width height ratio
    rcases h with h | h <;> simp [onResize, resize, draw, h]
  · intro hr events he
    have := run_of_paused events he hr
    exact ⟨this.2.1, this.2.2.1, this.2.2.2.1⟩
  · intro hr base period
    exact (run_of_paused _ (tickSource_ne_pauseClick base period 100) hr).2.1
  · intro hv events he
    have := run_of_hidden events he hv
    exact ⟨this.2.1, this.2.2.1, this.2.2.2.1⟩
  · intro s0 hr hb
    have h1 : (step s0 Event.pauseClick).running = false ∧
        (step s0 Event.pauseClick).draws = s0.draws := by
      simp [step, onPauseClick, hr, hb]
    refine ⟨h1.1, fun n base period => ?_⟩
    rw [(run_of_paused _ (tickSource_ne_pauseClick base period n) h1.1).2.1, h1.2]

/-- Witness of C8: the scheduler paused by a click right after startup. -/
theorem suspended_scheduler_does_not_draw_witness :
    (step (start false 300 150 1) Event.pauseClick).running = false ∧
    frame 1000 (step (start false 300 150 1) Event.pauseClick) =
      step (start false 300 150 1) Event.pauseClick ∧
    (run (tickSource 0 (1000 / 60) 100) (step (start false 300 150 1) Event.pauseClick)).draws =
      (step (start false 300 150 1) Event.pauseClick).draws :=
  ⟨by decide,
    ((suspended_scheduler_does_not_draw (step (start false 300 150 1) Event.pauseClick)
      (Or.inl (by decide))).1 1000).1,
    (suspended_scheduler_does_not_draw (step (start false 300 150 1) Event.pauseClick)
      (Or.inl (by decide))).2.2.2.1 (by decide) 0 (1000 / 60)⟩

/-- Animation frames delivered to a paused scheduler only empty the list of
registered callbacks. -/
theorem run_ticks_of_paused (l : List ℚ) (hl : l ≠ []) {s : Sched} (h : s.running = false) :
    run (l.map Event.tick) s = { s with pending := 0 } := by
  induction l generalizing s with
  | nil => exact absurd rfl hl
  | cons x rest ih =>
    have e : run ((x :: rest).map Event.tick) s = run (rest.map Event.tick) (tick x s) := rfl
    rw [e, tick_of_suspended x (Or.inl h)]
    cases rest with
    | nil => rfl
    | cons y rest => rw [ih (List.cons_ne_nil _ _) (s := { s with pending := 0 }) h]

theorem tickSource_eq_map (base period : ℚ) (n : Nat) :
    tickSource base period n =
      ((List.range n).map (fun k : Nat => base + ((k : ℚ) + 1) * period)).map Event.tick := by
  rw [tickSource, List.map_map]
  rfl

/-- C9: take a running, visible scheduler whose pause button is enabled and
whose last draw is not later than `base`, and a tick source that fires every
`period` ms from `base` on, where 101 periods are at least the frame budget
(every rate up to 1212 ticks per second; 60 per second gives
`period = 1000 / 60`). After a click on the pause button and 100 ticks no draw
has been added; after a second click (while the surface is visible) the single
next tick adds exactly one draw call, made by `frame` at that tick: not zero,
and no catch-up draws. -/
theorem resume_draws_exactly_once (s : Sched) (base period : ℚ) (hrun : s.running = true)
    (hvis : s.visible = true) (hbtn : s.prefersReduced = false) (hlast : s.last ≤ base)
    (hperiod : 1000 / 12 ≤ 101 * period) :
    (run (tickSource base period 100) (step s Event.pauseClick)).draws = s.draws ∧
    (step (run (tickSource base period 100) (step s Event.pauseClick))
      Event.pauseClick).draws = s.draws ∧
    (step (step (run (tickSource base period 100) (step s Event.pauseClick))
      Event.pauseClick) (Event.tick (base + 101 * period))).draws = s.draws + 1 ∧
    (step (step (run (tickSource base period 100) (step s Event.pauseClick))
      Event.pauseClick) (Event.tick (base + 101 * period))).frameDraws =
        (base + 101 * period) :: s.frameDraws := by
  have h1 : step s Event.pauseClick = { s with running := false } := by
    simp [step, onPauseClick, hrun, hbtn]
  have h2 : run (tickSource base period 100) (step s Event.pauseClick) =
      { s with running := false, pending := 0 } := by
    rw [h1, tickSource_eq_map, run_ticks_of_paused _ (by simp) rfl]
  have h3 : step (run (tickSource base period 100) (step s Event.pauseClick))
      Event.pauseClick = { s with running := true, pending := 1 } := by
    rw [h2]
    simp [step, onPauseClick, requestFrame, hvis, hbtn]
  have hb : ¬ (fl (base + 101 * period - s.last) < frameBudget) := by
    rw [fl_lt_frameBudget_iff, not_le]
    have : (11728124029610665 : ℚ) / 2 ^ 47 < 1000 / 12 := by norm_num
    linarith
  refine ⟨by rw [h2], by rw [h3], ?_, ?_⟩
  · rw [h3]
    simp [step, tick, frame, requestFrame, draw, hvis, hb]
  · rw [h3]
    simp [step, tick, frame, requestFrame, draw, hvis, hb]

/-- Witness of C9: the scheduler right after startup, paused and resumed under
a tick source of 60 ticks per second. -/
theorem resume_draws_exactly_once_witness :
    (start false 300 150 1).running = true ∧
    (start false 300 150 1).visible = true ∧
    (start false 300 150 1).prefersReduced = false ∧
    (start false 300 150 1).last ≤ 0 ∧
    (1000 : ℚ) / 12 ≤ 101 * (1000 / 60) ∧
    (step (step (run (tickSource 0 (1000 / 60) 100)
        (step (start false 300 150 1) Event.pauseClick))
      Event.pauseClick) (Event.tick (0 + 101 * (1000 / 60)))).draws =
      (start false 300 150 1).draws + 1 :=
  ⟨by decide, by decide, by decide, by decide, by norm_num,
    (resume_draws_exactly_once (start false 300 150 1) 0 (1000 / 60)
      (by decide) (by decide) (by decide) (by decide) (by norm_num)).2.2.1⟩

/-- What the resize handler does to each part of the state. -/
theorem onResize_fields (s : Sched) (width height ratio : ℚ) :
    (onResize width height ratio s).resizes = s.resizes + 1 ∧
    (onResize width height ratio s).dpr = max 1 ⌊if ratio = 0 then 1 else ratio⌋ ∧
    (onResize width height ratio s).canvasWidth =
      backingSize width (max 1 ⌊if ratio = 0 then 1 else ratio⌋) ∧
    (onResize width height ratio s).canvasHeight =
      backingSize height (max 1 ⌊if ratio = 0 then 1 else ratio⌋) ∧
    (onResize width height ratio s).draws =
      s.draws + (if s.running && s.visible then 1 else 0) ∧
    (onResize width height ratio s).t = s.t ∧
    (onResize width height ratio s).last = s.last ∧
    (onResize width height ratio s).pending = s.pending ∧
    (onResize width height ratio s).frameDraws = s.frameDraws ∧
    (onResize width height ratio s).running = s.running ∧
    (onResize width height ratio s).visible = s.visible := by
  by_cases h : (s.running && s.visible) = true
  · simp [onResize, resize, draw, h]
  · simp [onResize, resize, draw, h]

/-- A surface of 640 CSS pixels at a pixel ratio of 2: 1280 device pixels. -/
theorem backingSize_example : backingSize 640 2 = some 1280 := by
  have e : (640 : ℚ) * ((2 : Int) : ℚ) = 1280 := by norm_num
  have f : ⌊(1280 : ℚ)⌋ = 1280 := by
    rw [show (1280 : ℚ) = ((1280 : Int) : ℚ) by norm_num, Int.floor_intCast]
  rw [backingSize, e, fl_1280, if_neg (by norm_num), f]
  rfl

/-- The floor is taken of the rounded product: a width of `333.3333333333333`
(the double `5864062014805333 / 2 ^ 44`) at a pixel ratio of 3 gives 1000
device pixels, although the exact product is below 1000. -/
theorem backingSize_rounds_product :
    backingSize (5864062014805333 / 2 ^ 44) 3 = some 1000 ∧
    ⌊(5864062014805333 / 2 ^ 44 : ℚ) * 3⌋ = 999 := by
  constructor
  · have e : (5864062014805333 / 2 ^ 44 : ℚ) * ((3 : Int) : ℚ) =
        5864062014805333 / 2 ^ 44 * 3 := by norm_num
    have f : ⌊(1000 : ℚ)⌋ = 1000 := by
      rw [show (1000 : ℚ) = ((1000 : Int) : ℚ) by norm_num, Int.floor_intCast]
    rw [backingSize, e, fl_tie_example, if_neg (by norm_num), f]
    rfl
  · rw [Int.floor_eq_iff]
    constructor <;> norm_num

/-- A scheduler started under reduced motion and not running: no event sets
`running` or adds a draw. -/
theorem step_of_reduced {s : Sched} (hp : s.prefersReduced = true) (hr : s.running = false)
    (e : Event) :
    (step s e).prefersReduced = true ∧ (step s e).running = false ∧
      (step s e).draws = s.draws := by
  cases e with
  | tick ts => rw [step, tick_of_suspended ts (Or.inl hr)]; exact ⟨hp, hr, rfl⟩
  | pauseClick => simp [step, hp, hr]
  | intersection entries => simp [step, onIntersection, requestFrame, hp, hr]
  | resize width height ratio => simp [step, onResize, resize, draw, hp, hr]

theorem run_of_reduced (events : List Event) {s : Sched} (hp : s.prefersReduced = true)
    (hr : s.running = false) :
    (run events s).prefersReduced = true ∧ (run events s).running = false ∧
      (run events s).draws = s.draws := by
  apply foldl_invariant
    (fun s' : Sched => s'.prefersReduced = true ∧ s'.running = false ∧ s'.draws = s.draws)
    step events _ s ⟨hp, hr, rfl⟩
  intro b e _ hb
  have := step_of_reduced hb.1 hb.2.1 e
  exact ⟨this.1, this.2.1, this.2.2.trans hb.2.2⟩

/-- Startup under reduced motion: not running, and the static first frame is
drawn once. -/
theorem start_of_reduced (width height ratio : ℚ) :
    (start true width height ratio).prefersReduced = true ∧
    (start true width height ratio).running = false ∧
    (start true width height ratio).draws = 1 := by
  simp [start, resize, draw]

/-- C10 (counterexample): a resize event delivered to a paused scheduler
recomputes the backing resolution (the width becomes 1280) but does not call
`draw()`: the number of draws stays 0. Likewise a scheduler started under
reduced motion keeps the single draw of its static first frame. -/
theorem resize_while_paused_does_not_draw :
    (step (start false 300 150 1) Event.pauseClick).draws = 0 ∧
    (step (step (start false 300 150 1) Event.pauseClick) (Event.resize 640 480 2)).draws = 0 ∧
    (step (step (start false 300 150 1) Event.pauseClick) (Event.resize 640 480 2)).canvasWidth
      = some 1280 ∧
    (start true 300 150 1).draws = 1 ∧
    (step (start true 300 150 1) (Event.resize 640 480 2)).draws = 1 := by
  refine ⟨by decide, by decide, ?_, by decide, by decide⟩
  have e2 : ⌊(2 : ℚ)⌋ = 2 := by
    rw [show (2 : ℚ) = ((2 : Int) : ℚ) by norm_num, Int.floor_intCast]
  have h := (onResize_fields (step (start false 300 150 1) Event.pauseClick) 640 480 2).2.2.1
  rw [if_neg (by norm_num), e2, show max (1 : Int) 2 = 2 by decide, backingSize_example] at h
  exact h

/-- C10 (amended): on every resize event, in every scheduler state, the backing
resolution is recomputed from the new size and pixel ratio (each backing size
is the floor of the double product of the size and the ratio, at least 1);
`draw()` is called exactly once, at once and whatever `last` is (the throttle
is not consulted), when `running` and `visible` are both true, and not at all
otherwise. Nothing else changes: `t`, `last`, the registered callbacks and the
draws of `frame` stay as they are. A scheduler started under reduced motion is
never running, whatever events it has received, so that no resize event makes
it draw: its number of draws stays 1, the static first frame. -/
theorem resize_redraws_iff_running_and_visible (s : Sched) (width height ratio : ℚ) :
    (step s (Event.resize width height ratio)).resizes = s.resizes + 1 ∧
    (step s (Event.resize width height ratio)).dpr = max 1 ⌊if ratio = 0 then 1 else ratio⌋ ∧
    (step s (Event.resize width height ratio)).canvasWidth =
      backingSize width (max 1 ⌊if ratio = 0 then 1 else ratio⌋) ∧
    (step s (Event.resize width height ratio)).canvasHeight =
      backingSize height (max 1 ⌊if ratio = 0 then 1 else ratio⌋) ∧
    (step s (Event.resize width height ratio)).draws =
      s.draws + (if s.running && s.visible then 1 else 0) ∧
    (step s (Event.resize width height ratio)).t = s.t ∧
    (step s (Event.resize width height ratio)).last = s.last ∧
    (step s (Event.resize width height ratio)).pending = s.pending ∧
    (step s (Event.resize width height ratio)).frameDraws = s.frameDraws ∧
    (step s (Event.resize width height ratio)).running = s.running ∧
    (step s (Event.resize width height ratio)).visible = s.visible ∧
    (∀ (events : List Event) (w h r : ℚ),
      (run events (start true w h r)).running = false ∧
      (run events (start true w h r)).draws = 1 ∧
      (step (run events (start true w h r)) (Event.resize width height ratio)).running = false ∧
      (step (run events (start true w h r)) (Event.resize width height ratio)).draws = 1) := by
  obtain ⟨h1, h2, h3, h4, h5, h6, h7, h8, h9, h10, h11⟩ := onResize_fields s width height ratio
  refine ⟨h1, h2, h3, h4, h5, h6, h7, h8, h9, h10, h11, fun events w h r => ?_⟩
  obtain ⟨a1, a2, a3⟩ := start_of_reduced w h r
  obtain ⟨b1, b2, b3⟩ := run_of_reduced events a1 a2
  obtain ⟨c1, c2, c3⟩ :=
    step_of_reduced b1 b2 (Event.resize width height ratio)
  exact ⟨b2, b3.trans a3, c2, (c3.trans b3).trans a3⟩

/-! ## The draw step -/

theorem clamp01_range {K : Type} [LinearOrderedField K] (x : K) :
    0 ≤ clamp01 x ∧ clamp01 x ≤ 1 :=
  ⟨le_max_left _ _, max_le zero_le_one (min_le_left _ _)⟩

theorem cellSize_ge {K : Type} [LinearOrderedField K] [FloorRing K] (w h : K) :
    11 ≤ cellSize w h :=
  le_max_left _ _

/-- The loop variable takes exactly the multiples of the cell size below
`extent + cell`. -/
theorem mem_loopPositions {K : Type} [LinearOrderedField K] [FloorRing K] (extent : K)
    (cell : Int) (hc : 0 < cell) (p : K) :
    p ∈ loopPositions extent cell ↔
      ∃ k : Nat, p = (k : K) * (cell : K) ∧ (k : K) * (cell : K) < extent + (cell : K) := by
  have hcK : (0 : K) < (cell : K) := by exact_mod_cast hc
  simp only [loopPositions, List.mem_map, List.mem_range, Nat.lt_ceil, lt_div_iff₀ hcK]
  constructor
  · rintro ⟨k, hk, rfl⟩
    exact ⟨k, rfl, hk⟩
  · rintro ⟨k, rfl, hk⟩
    exact ⟨k, hk, rfl⟩

/-- Both loops of `draw` run at least once on a surface of non-negative size:
the position 0 is always visited. -/
theorem zero_mem_loopPositions {K : Type} [LinearOrderedField K] [FloorRing K] (extent : K)
    (hx : 0 ≤ extent) (cell : Int) (hc : 0 < cell) : (0 : K) ∈ loopPositions extent cell := by
  have hcK : (0 : K) < (cell : K) := by exact_mod_cast hc
  rw [mem_loopPositions extent cell hc]
  exact ⟨0, by simp, by simp; linarith⟩

/-- The divisors used by `draw`: 34, and for a surface of non-negative size
those of at least one glyph. -/
theorem mem_drawDivisors {K : Type} [LinearOrderedField K] [FloorRing K] (w h : K)
    (hw : 0 ≤ w) (hh : 0 ≤ h) (d : K) :
    d ∈ drawDivisors w h ↔ d = 34 ∨ d ∈ glyphDivisors w h := by
  have hc : 0 < cellSize w h := lt_of_lt_of_le (by norm_num) (cellSize_ge w h)
  simp only [drawDivisors, List.mem_cons, List.mem_flatMap]
  constructor
  · rintro (h1 | ⟨_, _, _, _, h2⟩)
    · exact Or.inl h1
    · exact Or.inr h2
  · rintro (h1 | h2)
    · exact Or.inl h1
    · exact Or.inr ⟨0, zero_mem_loopPositions h hh _ hc, 0, zero_mem_loopPositions w hw _ hc, h2⟩

/-- C11 (counterexample): on a surface with zero area the cell size is 11 and
`draw` still draws (the glyph at `(0, 0)`), dividing by the width 0 in `x / w`;
the same happens for a surface of width 0 and height 150. -/
theorem draw_divides_by_zero_on_empty_surface :
    cellSize (0 : ℚ) 0 = 11 ∧
    (0 : ℚ) ∈ loopPositions (0 : ℚ) (cellSize (0 : ℚ) 0) ∧
    (0 : ℚ) ∈ drawDivisors (0 : ℚ) 0 ∧
    (0 : ℚ) ∈ drawDivisors (0 : ℚ) 150 ∧
    ¬ (∀ d ∈ drawDivisors (0 : ℚ) 0, d ≠ 0) := by
  have hc : 0 < cellSize (0 : ℚ) 0 := lt_of_lt_of_le (by norm_num) (cellSize_ge _ _)
  have h0 : (0 : ℚ) ∈ drawDivisors (0 : ℚ) 0 :=
    (mem_drawDivisors 0 0 (le_refl _) (le_refl _) 0).mpr (Or.inr (by simp [glyphDivisors]))
  refine ⟨by simp [cellSize], zero_mem_loopPositions 0 (le_refl _) _ hc, h0, ?_,
    fun hall => hall 0 h0 rfl⟩
  exact (mem_drawDivisors 0 150 (le_refl _) (by norm_num) 0).mpr (Or.inr (by simp [glyphDivisors]))

/-- C11 (amended): for every surface width `w ≥ 0` and height `h ≥ 0`, zero
area included, the glyph cell size is at least 11, so both loops advance; every
divisor used by `draw` is non-zero exactly when `w` and `h` are both non-zero
(the divisors are 34, 220, 3, 2, `w` and `h`). -/
theorem draw_cell_size_and_divisors {K : Type} [LinearOrderedField K] [FloorRing K] (w h : K)
    (hw : 0 ≤ w) (hh : 0 ≤ h) :
    11 ≤ cellSize w h ∧
    (∀ d ∈ drawDivisors w h, d = 34 ∨ d = 220 ∨ d = 3 ∨ d = 2 ∨ d = w ∨ d = h) ∧
    ((∀ d ∈ drawDivisors w h, d ≠ 0) ↔ (w ≠ 0 ∧ h ≠ 0)) := by
  refine ⟨cellSize_ge w h, ?_, ?_⟩
  · intro d hd
    rcases (mem_drawDivisors w h hw hh d).mp hd with h1 | h1
    · exact Or.inl h1
    · simp only [glyphDivisors, List.mem_cons, List.mem_singleton, List.not_mem_nil,
        or_false] at h1
      tauto
  · constructor
    · intro hall
      refine ⟨hall w ?_, hall h ?_⟩
      · exact (mem_drawDivisors w h hw hh w).mpr (Or.inr (by simp [glyphDivisors]))
      · exact (mem_drawDivisors w h hw hh h).mpr (Or.inr (by simp [glyphDivisors]))
    · rintro ⟨hw0, hh0⟩ d hd
      rcases (mem_drawDivisors w h hw hh d).mp hd with h1 | h1
      · rw [h1]; norm_num
      · simp only [glyphDivisors, List.mem_cons, List.mem_singleton, List.not_mem_nil,
          or_false] at h1
        rcases h1 with h1 | h1 | h1 | h1 | h1 | h1 | h1 | h1 <;> rw [h1] <;>
          first | exact hw0 | exact hh0 | norm_num

/-- Witness of C11 (amended): a surface of 300 by 150 CSS pixels. -/
theorem draw_cell_size_and_divisors_witness :
    (0 : ℚ) ≤ 300 ∧ (0 : ℚ) ≤ 150 ∧ 11 ≤ cellSize (300 : ℚ) 150 ∧
    ((∀ d ∈ drawDivisors (300 : ℚ) 150, d ≠ 0) ↔ ((300 : ℚ) ≠ 0 ∧ (150 : ℚ) ≠ 0)) :=
  ⟨by norm_num, by norm_num,
    (draw_cell_size_and_divisors (300 : ℚ) 150 (by norm_num) (by norm_num)).1,
    (draw_cell_size_and_divisors (300 : ℚ) 150 (by norm_num) (by norm_num)).2.2⟩

/-- The field is the average of three values of `sin` and `cos`, so it is
bounded like them. -/
theorem field_bounded {K : Type} [LinearOrderedField K] (sin cos : K → K)
    (hs : ∀ z, -1 ≤ sin z ∧ sin z ≤ 1) (hc : ∀ z, -1 ≤ cos z ∧ cos z ≤ 1) (x y time : K) :
    -1 ≤ field sin cos x y time ∧ field sin cos x y time ≤ 1 := by
  have ha := hs ((x / 220 * 7.0 + time * 0.8) + sin (y / 220 * 2.2))
  have hb := hc ((y / 220 * 6.5 - time * 0.7) + cos (x / 220 * 2.0))
  have hcc := hs ((x / 220 + y / 220) * 6.0 + time * 1.2)
  simp only [field]
  constructor
  · rw [le_div_iff₀ (by norm_num)]; linarith [ha.1, hb.1, hcc.1]
  · rw [div_le_iff₀ (by norm_num)]; linarith [ha.2, hb.2, hcc.2]

/-- C12: for all real `x`, `y` and `t` (so for every `t` in `[0, 10000]`), with
the real sine and cosine for `Math.sin` and `Math.cos`, `field(x, y, t)` is the
unweighted average `(a + b + c) / 3` of three sine and cosine values and lies in
`[-1, 1]`. -/
theorem field_in_unit_range (x y t : ℝ) :
    (∃ a b c : ℝ, (-1 ≤ a ∧ a ≤ 1) ∧ (-1 ≤ b ∧ b ≤ 1) ∧ (-1 ≤ c ∧ c ≤ 1) ∧
      field Real.sin Real.cos x y t = (a + b + c) / 3) ∧
    -1 ≤ field Real.sin Real.cos x y t ∧ field Real.sin Real.cos x y t ≤ 1 := by
  refine ⟨⟨Real.sin ((x / 220 * 7.0 + t * 0.8) + Real.sin (y / 220 * 2.2)),
    Real.cos ((y / 220 * 6.5 - t * 0.7) + Real.cos (x / 220 * 2.0)),
    Real.sin ((x / 220 + y / 220) * 6.0 + t * 1.2),
    ⟨Real.neg_one_le_sin _, Real.sin_le_one _⟩, ⟨Real.neg_one_le_cos _, Real.cos_le_one _⟩,
    ⟨Real.neg_one_le_sin _, Real.sin_le_one _⟩, rfl⟩, ?_⟩
  exact field_bounded Real.sin Real.cos (fun z => ⟨Real.neg_one_le_sin z, Real.sin_le_one z⟩)
    (fun z => ⟨Real.neg_one_le_cos z, Real.cos_le_one z⟩) x y t

theorem glyphIndex_range {K : Type} [LinearOrderedField K] [FloorRing K] (v : K) :
    0 ≤ glyphIndex v ∧ glyphIndex v ≤ 9 := by
  have h := clamp01_range ((v + 1) / 2)
  constructor
  · apply Int.floor_nonneg.mpr
    have : (0 : K) ≤ 10 - 1 := by norm_num
    exact mul_nonneg h.1 this
  · apply Int.floor_le_iff.mpr
    have : clamp01 ((v + 1) / 2) * (10 - 1) ≤ 9 := by linarith [h.2]
    push_cast
    linarith

theorem rampGlyph_mem {K : Type} [LinearOrderedField K] [FloorRing K] (v : K) :
    ∃ c ∈ rampChars, rampGlyph v = some c := by
  have h := glyphIndex_range v
  have hn : (glyphIndex v).toNat < 10 := by omega
  simp only [rampGlyph, if_pos h.1]
  generalize (glyphIndex v).toNat = n at hn
  interval_cases n <;> simp [rampChars]

theorem glyphIndex_low {K : Type} [LinearOrderedField K] [FloorRing K] (v : K) (hv : v ≤ -1) :
    glyphIndex v = 0 := by
  have h0 : clamp01 ((v + 1) / 2) = 0 := by
    have : (v + 1) / 2 ≤ 0 := by linarith
    simp only [clamp01]
    rw [min_eq_right (by linarith), max_eq_left this]
  simp only [glyphIndex, h0, zero_mul, Int.floor_zero]

theorem glyphIndex_high {K : Type} [LinearOrderedField K] [FloorRing K] (v : K) (hv : 1 ≤ v) :
    glyphIndex v = 9 := by
  have h1 : clamp01 ((v + 1) / 2) = 1 := by
    have : 1 ≤ (v + 1) / 2 := by linarith
    simp only [clamp01]
    rw [min_eq_left this, max_eq_right zero_le_one]
  simp only [glyphIndex, h1, one_mul]
  rw [Int.floor_eq_iff]
  constructor <;> norm_num

/-- C15: for every real field value `v` the glyph index
`floor(clamp01((v + 1) / 2) * 9)` is an integer in `0..9`, so the lookup in the
10-level ramp is never out of range and selects one of its characters; values
`v ≤ -1` give index 0 and values `v ≥ 1` give index 9. Every glyph that `draw`
passes to `fillText` is therefore a character of the ramp. -/
theorem glyph_index_in_ramp (v : ℝ) :
    (0 ≤ glyphIndex v ∧ glyphIndex v ≤ 9) ∧
    (∃ c ∈ rampChars, rampGlyph v = some c ∧ rampChars[(glyphIndex v).toNat]? = some c) ∧
    rampChars.length = 10 ∧
    (v ≤ -1 → glyphIndex v = 0 ∧ rampGlyph v = some ' ') ∧
    (1 ≤ v → glyphIndex v = 9 ∧ rampGlyph v = some '@') ∧
    (∀ (w h t : ℝ), ∀ g ∈ drawGlyphs Real.sin Real.cos w h t, ∃ c ∈ rampChars, g.1 = some c) := by
  have hr := glyphIndex_range v
  refine ⟨hr, ?_, rfl, ?_, ?_, ?_⟩
  · obtain ⟨c, hc, hg⟩ := rampGlyph_mem v
    refine ⟨c, hc, hg, ?_⟩
    rw [← hg, rampGlyph, if_pos hr.1]
  · intro hv
    have h0 := glyphIndex_low v hv
    refine ⟨h0, ?_⟩
    simp [rampGlyph, h0, rampChars]
  · intro hv
    have h9 := glyphIndex_high v hv
    refine ⟨h9, ?_⟩
    simp [rampGlyph, h9, rampChars]
  · intro w h t g hg
    simp only [drawGlyphs, List.mem_flatMap, List.mem_map] at hg
    obtain ⟨y, _, x, _, rfl⟩ := hg
    obtain ⟨c, hc, e⟩ := rampGlyph_mem (field Real.sin Real.cos x y t)
    exact ⟨c, hc, e⟩

/-! ## The colour helpers -/

/-- The two hexadecimal digits written for a channel value in `0..255`. -/
theorem channel_digits :
    ∀ v : Fin 256, padStart2 (toString16 (clamp255 (v.val : Int)).toNat) =
      [Nat.digitChar (v.val / 16), Nat.digitChar (v.val % 16)] := by
  set_option maxRecDepth 100000 in decide

/-- Reading back the two digits of a channel value gives the value. -/
theorem parseHex2_digits :
    ∀ v : Fin 256, parseHex2 (Nat.digitChar (v.val / 16)) (Nat.digitChar (v.val % 16)) =
      some (v.val : Int) := by
  set_option maxRecDepth 100000 in decide

/-- The sixteen digits are lowercase hexadecimal digits, and `trim()` keeps
them. -/
theorem digitChar_lowercase :
    ∀ d : Fin 16, Nat.digitChar d.val ∈ "0123456789abcdef".data ∧
      isTrimmed (Nat.digitChar d.val) = false := by
  decide

theorem trim_of_ends (a z : Char) (mid : List Char) (ha : isTrimmed a = false)
    (hz : isTrimmed z = false) : trim (a :: (mid ++ [z])) = a :: (mid ++ [z]) := by
  have h1 : (a :: (mid ++ [z])).dropWhile isTrimmed = a :: (mid ++ [z]) := by
    rw [List.dropWhile_cons_of_neg (by simp [ha])]
  have h2 : (a :: (mid ++ [z])).reverse = z :: (a :: mid).reverse := by simp
  rw [trim, h1, h2, List.dropWhile_cons_of_neg (by simp [hz]), ← h2, List.reverse_reverse]

/-- What `hexToRgb` returns for a string that, once trimmed, is `#` and three
groups of two hexadecimal digits. -/
theorem hexToRgb_of_groups (s : String) (r1 r0 g1 g0 b1 b0 : Char) (r g b : Int)
    (ht : trim s.data = ['#', r1, r0, g1, g0, b1, b0]) (hr : parseHex2 r1 r0 = some r)
    (hg : parseHex2 g1 g0 = some g) (hb : parseHex2 b1 b0 = some b) :
    hexToRgb s = [r, g, b] := by
  simp only [hexToRgb, ht, hr, hg, hb]

/-- The string written by `rgbToHex` for channel values in `0..255`, and what
`hexToRgb` reads from it. -/
theorem rgbToHex_fin (r g b : Fin 256) :
    (rgbToHex ((r.val : Int), (g.val : Int), (b.val : Int))).data =
      ['#', Nat.digitChar (r.val / 16), Nat.digitChar (r.val % 16),
        Nat.digitChar (g.val / 16), Nat.digitChar (g.val % 16),
        Nat.digitChar (b.val / 16), Nat.digitChar (b.val % 16)] ∧
    hexToRgb (rgbToHex ((r.val : Int), (g.val : Int), (b.val : Int))) =
      [(r.val : Int), (g.val : Int), (b.val : Int)] := by
  have e : (rgbToHex ((r.val : Int), (g.val : Int), (b.val : Int))).data =
      ['#', Nat.digitChar (r.val / 16), Nat.digitChar (r.val % 16),
        Nat.digitChar (g.val / 16), Nat.digitChar (g.val % 16),
        Nat.digitChar (b.val / 16), Nat.digitChar (b.val % 16)] := by
    simp only [rgbToHex, List.map_cons, List.map_nil, List.flatten_cons, List.flatten_nil,
      channel_digits r, channel_digits g, channel_digits b]
    rfl
  refine ⟨e, ?_⟩
  have hz : isTrimmed (Nat.digitChar (b.val % 16)) = false :=
    (digitChar_lowercase ⟨b.val % 16, Nat.mod_lt _ (by norm_num)⟩).2
  have ht := trim_of_ends '#' (Nat.digitChar (b.val % 16))
    [Nat.digitChar (r.val / 16), Nat.digitChar (r.val % 16),
      Nat.digitChar (g.val / 16), Nat.digitChar (g.val % 16), Nat.digitChar (b.val / 16)]
    (by decide) hz
  simp only [List.cons_append, List.nil_append] at ht
  rw [← e] at ht
  exact hexToRgb_of_groups _ _ _ _ _ _ _ _ _ _ (by rw [ht, e]) (parseHex2_digits r)
    (parseHex2_digits g) (parseHex2_digits b)

/-- C14: for every triple of integers `r`, `g`, `b` in `0..255`,
`rgbToHex([r, g, b])` is `#` followed by six lowercase hexadecimal digits, two
per channel and zero-padded (the digits of `r / 16` and `r % 16`, and so on),
and `hexToRgb(rgbToHex([r, g, b])) = [r, g, b]`; also
`rgbToHex([255, 0, 0]) = "#ff0000"` and `hexToRgb("#00ff00") = [0, 255, 0]`,
the two self-tests of the source. -/
theorem hexToRgb_rgbToHex (r g b : Int) (hr : 0 ≤ r ∧ r ≤ 255) (hg : 0 ≤ g ∧ g ≤ 255)
    (hb : 0 ≤ b ∧ b ≤ 255) :
    (rgbToHex (r, g, b)).data =
      ['#', Nat.digitChar (r.toNat / 16), Nat.digitChar (r.toNat % 16),
        Nat.digitChar (g.toNat / 16), Nat.digitChar (g.toNat % 16),
        Nat.digitChar (b.toNat / 16), Nat.digitChar (b.toNat % 16)] ∧
    (∀ c ∈ (rgbToHex (r, g, b)).data.tail, c ∈ "0123456789abcdef".data) ∧
    hexToRgb (rgbToHex (r, g, b)) = [r, g, b] ∧
    rgbToHex (255, 0, 0) = "#ff0000" ∧
    hexToRgb "#00ff00" = [0, 255, 0] := by
  have key := rgbToHex_fin ⟨r.toNat, by omega⟩ ⟨g.toNat, by omega⟩ ⟨b.toNat, by omega⟩
  simp only [Int.toNat_of_nonneg hr.1, Int.toNat_of_nonneg hg.1, Int.toNat_of_nonneg hb.1] at key
  have hd : ∀ n : Nat, Nat.digitChar (n / 16 % 16) ∈ "0123456789abcdef".data ∧
      Nat.digitChar (n % 16) ∈ "0123456789abcdef".data := fun n =>
    ⟨(digitChar_lowercase ⟨n / 16 % 16, Nat.mod_lt _ (by norm_num)⟩).1,
      (digitChar_lowercase ⟨n % 16, Nat.mod_lt _ (by norm_num)⟩).1⟩
  have hq : ∀ n : Nat, n < 256 → n / 16 % 16 = n / 16 := fun n hn =>
    Nat.mod_eq_of_lt (by omega)
  refine ⟨key.1, ?_, key.2, by decide, by decide⟩
  intro c hc
  rw [key.1] at hc
  simp only [List.tail_cons, List.mem_cons, List.mem_singleton, List.not_mem_nil, or_false] at hc
  have h1 := hd r.toNat
  have h2 := hd g.toNat
  have h3 := hd b.toNat
  rw [hq r.toNat (by omega)] at h1
  rw [hq g.toNat (by omega)] at h2
  rw [hq b.toNat (by omega)] at h3
  rcases hc with rfl | rfl | rfl | rfl | rfl | rfl
  · exact h1.1
  · exact h1.2
  · exact h2.1
  · exact h2.2
  · exact h3.1
  · exact h3.2

/-- Witness of C14: the colour `(18, 171, 255)`. -/
theorem hexToRgb_rgbToHex_witness :
    ((0 : Int) ≤ 18 ∧ (18 : Int) ≤ 255) ∧ ((0 : Int) ≤ 171 ∧ (171 : Int) ≤ 255) ∧
    ((0 : Int) ≤ 255 ∧ (255 : Int) ≤ 255) ∧
    hexToRgb (rgbToHex (18, 171, 255)) = [18, 171, 255] :=
  ⟨by decide, by decide, by decide,
    (hexToRgb_rgbToHex 18 171 255 (by decide) (by decide) (by decide)).2.2.1⟩

/-! ## The spine step and the alphabet of the sigil -/

theorem spineCell_eq_spineCellWith {σ : Type} (rng : σ → ℚ × σ) (st : σ × Grid) (y : Nat) :
    spineCell rng st y = spineCellWith rng '|' '+' st y := by
  simp only [spineCell, spineCellWith]

theorem spinePass_eq_spinePassWith {σ : Type} (rng : σ → ℚ × σ) (st : σ × Grid) :
    spinePass rng st = spinePassWith rng '|' '+' st := by
  have h : spineCell rng = spineCellWith rng '|' '+' := by
    funext st y
    exact spineCell_eq_spineCellWith rng st y
  rw [spinePass, spinePassWith, h]

/-- The grid of `generateSigil` is the one whose spine step writes `|` and `+`. -/
theorem generateSigilGrid_eq_with (seed : Nat) :
    generateSigilGrid seed = generateSigilGridWith '|' '+' seed := by
  rw [generateSigilGrid, generateSigilGridWith, sigilGrid, spinePass_eq_spinePassWith]

/-- One step of the spine loop keeps the shape of the grid and changes at most
the cell `(y, 11)`. -/
theorem spineCellWith_cellAt {σ : Type} (rng : σ → ℚ × σ) (first second : Char)
    (st : σ × Grid) {y : Nat} (hy : y < 11) (hs : GridShape st.2) :
    GridShape (spineCellWith rng first second st y).2 ∧
      ∀ y' x', ¬ (x' = 11 ∧ y' = y) →
        cellAt (spineCellWith rng first second st y).2 y' x' = cellAt st.2 y' x' := by
  by_cases hc : (rng st.1).1 < 0.55
  · simp only [spineCellWith, if_pos hc]
    refine ⟨setCell_shape hs _ _ _, fun y' x' hne => ?_⟩
    rw [cellAt_setCell hs hy (by norm_num), if_neg (fun h => hne ⟨h.2, h.1⟩)]
  · simp only [spineCellWith, if_neg hc]
    exact ⟨hs, fun _ _ _ => trivial⟩

/-- The spine loop keeps the shape of the grid and changes at most the cells
`(y, 11)` with `1 ≤ y ≤ 9`. -/
theorem spinePassWith_cellAt {σ : Type} (rng : σ → ℚ × σ) (first second : Char)
    (st : σ × Grid) (hs : GridShape st.2) :
    GridShape (spinePassWith rng first second st).2 ∧
      ∀ y' x', ¬ (x' = 11 ∧ 1 ≤ y' ∧ y' ≤ 9) →
        cellAt (spinePassWith rng first second st).2 y' x' = cellAt st.2 y' x' := by
  unfold spinePassWith
  apply foldl_invariant
    (fun s : σ × Grid => GridShape s.2 ∧
      ∀ y' x', ¬ (x' = 11 ∧ 1 ≤ y' ∧ y' ≤ 9) → cellAt s.2 y' x' = cellAt st.2 y' x')
    _ _ _ st ⟨hs, fun _ _ _ => rfl⟩
  intro s y hy hinv
  have hy' := List.mem_range'_1.mp hy
  have h := spineCellWith_cellAt rng first second s (y := y) (by omega) hinv.1
  refine ⟨h.1, fun y' x' hne => ?_⟩
  rw [h.2 y' x' (fun hh => hne ⟨hh.1, by omega, by omega⟩)]
  exact hinv.2 y' x' hne

/-- The corner marks act cell by cell: grids that agree in a cell agree in it
after the corner marks. -/
theorem cornerMarks_cellAt_congr {g₁ g₂ : Grid} (h₁ : GridShape g₁) (h₂ : GridShape g₂)
    (y x : Nat) (h : cellAt g₁ y x = cellAt g₂ y x) :
    cellAt (cornerMarks g₁) y x = cellAt (cornerMarks g₂) y x := by
  have a1 := setCell_shape h₁ 0 0 (some '+')
  have a2 := setCell_shape a1 0 22 (some '+')
  have a3 := setCell_shape a2 10 0 (some '+')
  have b1 := setCell_shape h₂ 0 0 (some '+')
  have b2 := setCell_shape b1 0 22 (some '+')
  have b3 := setCell_shape b2 10 0 (some '+')
  unfold cornerMarks
  rw [cellAt_setCell a3 (by norm_num) (by norm_num), cellAt_setCell a2 (by norm_num) (by norm_num),
    cellAt_setCell a1 (by norm_num) (by norm_num), cellAt_setCell h₁ (by norm_num) (by norm_num),
    cellAt_setCell b3 (by norm_num) (by norm_num), cellAt_setCell b2 (by norm_num) (by norm_num),
    cellAt_setCell b1 (by norm_num) (by norm_num), cellAt_setCell h₂ (by norm_num) (by norm_num), h]

/-- Whatever the spine step writes, the final grid agrees with the grid without
spine outside the cells `(y, 11)`, `1 ≤ y ≤ 9`. -/
theorem generateSigilGridWith_cellAt (first second : Char) (seed y x : Nat)
    (h : ¬ (x = 11 ∧ 1 ≤ y ∧ y ≤ 9)) :
    cellAt (generateSigilGridWith first second seed) y x =
      cellAt (generateSigilGridNoSpine seed) y x := by
  have hf : GridShape (fillGrid Rng.next (mulberry32 seed, blankGrid)).2 :=
    (fillGrid_inv Rng.next Rng.next_range _ blankGrid_inv).shape
  have hsp := spinePassWith_cellAt Rng.next first second _ hf
  unfold generateSigilGridWith generateSigilGridNoSpine
  exact cornerMarks_cellAt_congr hsp.1 hf y x (hsp.2 y x h)

/-- C13: for every seed the spine step affects only the centre column. For every
row `y` and every column `x ≠ 11` the character at `(y, x)` of the final grid is
the same whichever two characters `first` and `second` the spine step writes: it
is the character of `generateSigil` itself (where they are `|` and `+`) and the
one of the grid built without the spine writes. The final grid differs from the
grid without spine only in cells `(y, 11)` with `1 ≤ y ≤ 9`. -/
theorem spine_changes_only_centre_column (seed : Nat) (first second : Char) (y x : Nat) :
    generateSigilGrid seed = generateSigilGridWith '|' '+' seed ∧
    (x ≠ 11 →
      cellAt (generateSigilGridWith first second seed) y x = cellAt (generateSigilGrid seed) y x ∧
      cellAt (generateSigilGridWith first second seed) y x =
        cellAt (generateSigilGridNoSpine seed) y x) ∧
    (cellAt (generateSigilGridWith first second seed) y x ≠
        cellAt (generateSigilGridNoSpine seed) y x → x = 11 ∧ 1 ≤ y ∧ y ≤ 9) := by
  refine ⟨generateSigilGrid_eq_with seed, fun hx => ?_, fun hne => ?_⟩
  · have h : ¬ (x = 11 ∧ 1 ≤ y ∧ y ≤ 9) := fun hh => hx hh.1
    rw [generateSigilGrid_eq_with seed, generateSigilGridWith_cellAt first second seed y x h,
      generateSigilGridWith_cellAt '|' '+' seed y x h]
    exact ⟨rfl, rfl⟩
  · by_contra hh
    exact hne (generateSigilGridWith_cellAt first second seed y x hh)

theorem mem_allowedCells_iff (c : Cell) :
    c ∈ allowedCells ↔ ∃ ch : Char, c = some ch ∧ (ch = ' ' ∨ ch ∈ chars) := by
  simp only [allowedCells, List.mem_cons, List.mem_map]
  constructor
  · rintro (h | ⟨ch, hch, rfl⟩)
    · exact ⟨' ', h, Or.inl rfl⟩
    · exact ⟨ch, rfl, Or.inr hch⟩
  · rintro ⟨ch, rfl, h | h⟩
    · exact Or.inl (by rw [h])
    · exact Or.inr ⟨ch, h, rfl⟩

/-- The glyph index of a draw in `[0, 1)` is in `0..9` and the lookup finds a
glyph. -/
theorem pickGlyph_in_range {r : ℚ} (h0 : 0 ≤ r) (h1 : r < 1) :
    0 ≤ ⌊r * 10⌋ ∧ ⌊r * 10⌋ ≤ 9 ∧ ∃ ch ∈ chars, pickGlyph r = some ch := by
  have hi0 : 0 ≤ ⌊r * 10⌋ := Int.floor_nonneg.mpr (by positivity)
  have hi1 : ⌊r * 10⌋ < 10 := Int.floor_lt.mpr (by push_cast; linarith)
  refine ⟨hi0, by omega, ?_⟩
  simp only [pickGlyph, if_pos hi0]
  have hn : ⌊r * 10⌋.toNat < 10 := by omega
  generalize ⌊r * 10⌋.toNat = n at hn
  interval_cases n <;> simp [chars]

/-- C16: the glyph index `floor(rng() * 10)` is in `0..9` for every draw of the
generator, in whatever state it is (so for every draw of the mirrored fill, and
for the `n`-th draw of `mulberry32(seed)` for every `n`), and the lookup
`chars[...]` then returns one of the ten glyphs, never `undefined`. Every cell
of the grid of `generateSigil(seed)`, and every character of the returned
string other than the row separators at the positions `i` with `i % 24 = 23`,
is a space or one of the ten glyphs. -/
theorem glyph_lookup_in_range (seed : Nat) :
    chars.length = 10 ∧
    (∀ g : Rng, 0 ≤ ⌊g.next.1 * 10⌋ ∧ ⌊g.next.1 * 10⌋ ≤ 9 ∧
      ∃ ch ∈ chars, pickGlyph g.next.1 = some ch) ∧
    (∀ n : Nat, 0 ≤ ⌊nthOutput seed n * 10⌋ ∧ ⌊nthOutput seed n * 10⌋ ≤ 9) ∧
    (∀ y x, y < 11 → x < 23 →
      ∃ ch : Char, cellAt (generateSigilGrid seed) y x = some ch ∧ (ch = ' ' ∨ ch ∈ chars)) ∧
    (∀ i, i < 263 → i % 24 ≠ 23 →
      ∃ ch : Char, (generateSigil seed).data[i]? = some ch ∧ (ch = ' ' ∨ ch ∈ chars)) ∧
    (∀ ch ∈ (generateSigil seed).data, ch = '\n' ∨ ch = ' ' ∨ ch ∈ chars) := by
  have h := generateSigilGrid_inv seed
  have hcell : ∀ i, i < 263 → i % 24 ≠ 23 →
      ∃ ch : Char, (generateSigil seed).data[i]? = some ch ∧ (ch = ' ' ∨ ch ∈ chars) := by
    intro i hi hne
    have hx : i % 24 < 24 := Nat.mod_lt _ (by norm_num)
    have hy : i / 24 < 11 := by omega
    have hx' : i % 24 < 23 := by omega
    have c := h.charAt_renderGrid hy hx'
    simp only [charAt] at c
    rw [show (23 + 1) * (i / 24) + i % 24 = i by omega] at c
    obtain ⟨ch, e, hch⟩ := (mem_allowedCells_iff _).mp (h.glyphs _ _ hy hx')
    exact ⟨ch, by rw [generateSigil, c, e], hch⟩
  refine ⟨rfl, fun g => pickGlyph_in_range (Rng.next_range g).1 (Rng.next_range g).2,
    fun n => ?_, fun y x hy hx => (mem_allowedCells_iff _).mp (h.glyphs y x hy hx), hcell, ?_⟩
  · have hr := pickGlyph_in_range (Rng.next_range (Rng.after seed (n - 1))).1
      (Rng.next_range (Rng.after seed (n - 1))).2
    exact ⟨hr.1, hr.2.1⟩
  · intro ch hch
    obtain ⟨i, hi, rfl⟩ := List.getElem_of_mem hch
    have hlen : (generateSigil seed).data.length = 263 := h.length_renderGrid
    have hi' : i < 263 := by rw [← hlen]; exact hi
    by_cases e : i % 24 = 23
    · left
      have := (h.newline_iff i hi').mpr e
      rw [generateSigil] at hi
      have h2 : (renderGrid (generateSigilGrid seed)).data[i]? =
          some ((renderGrid (generateSigilGrid seed)).data[i]) := List.getElem?_eq_getElem hi
      rw [h2] at this
      exact Option.some.inj this
    · right
      obtain ⟨c, hc, hcc⟩ := hcell i hi' e
      rw [List.getElem?_eq_getElem hi] at hc
      rw [Option.some.inj hc]
      exact hcc

end Sigilry
